import Mathlib

set_option maxHeartbeats 1000000
set_option maxRecDepth 8000

/-
  Verification of the fundu duration-string parser.

  The development shallowly embeds the two parsers of the repository:
  * `Fundu.Simple`: the self-contained parser of `src/lib.rs`
    (`DurationParser`, `DurationRepr`, `Seconds`, `Nanos`, `parse_duration`).
  * `Fundu.Repr`: the configurable scanner of `src/parsing/repr_parser.rs`
    (`ReprParser` with `Config` and a time-unit table).

  Byte strings are modelled as `List Nat` (one entry per byte, values < 256
  for genuine inputs).  Machine integers are modelled as `Nat`/`Int` with
  explicit wrap-around (`% 2 ^ 64`, two's complement for `i16`) exactly where
  the Rust code relies on wrapping, and with explicit range checks where the
  code uses checked arithmetic.
-/

/-- Decidable equality of `Except` results (missing from the libraries),
used to evaluate the parsers on concrete inputs. -/
instance {ε α : Type} [DecidableEq ε] [DecidableEq α] : DecidableEq (Except ε α) := fun a b =>
  match a, b with
  | .ok x, .ok y =>
    if h : x = y then isTrue (h ▸ rfl) else isFalse (fun hc => h (Except.ok.inj hc))
  | .error x, .error y =>
    if h : x = y then isTrue (h ▸ rfl) else isFalse (fun hc => h (Except.error.inj hc))
  | .ok _, .error _ => isFalse (fun hc => Except.noConfusion hc)
  | .error _, .ok _ => isFalse (fun hc => Except.noConfusion hc)

namespace Fundu

/-- Bytes of an ASCII string: for ASCII content `String.data` agrees with the
UTF-8 bytes of the Rust `&str`. -/
def strBytes (s : String) : List Nat := s.data.map Char.toNat

/-- `u8::wrapping_sub(b, b'0')`: two's complement subtraction of 48 on a byte
(`208 = 256 - 48`).  Agrees with the Rust semantics for every `b < 256`. -/
def wsub0 (b : Nat) : Nat := (b + 208) % 256

/-- `u8::is_ascii_digit`. -/
def is_ascii_digit (b : Nat) : Bool := 48 ≤ b && b ≤ 57

/-- `u8::to_ascii_lowercase`. -/
def to_ascii_lowercase (b : Nat) : Nat := if 65 ≤ b ∧ b ≤ 90 then b + 32 else b

/-- `u8::eq_ignore_ascii_case`. -/
def eq_ignore_ascii_case (a b : Nat) : Bool :=
  to_ascii_lowercase a == to_ascii_lowercase b

namespace Simple

/-! Embedding of `src/lib.rs`. -/

/-- `pub const NANOS_MAX: u32 = 999_999_999`. -/
def NANOS_MAX : Nat := 999999999

/-- `pub const SECONDS_MAX: u64 = u64::MAX`. -/
def SECONDS_MAX : Nat := 2 ^ 64 - 1

/-- `enum ParseError { Syntax, Overflow }` (the source calls the first variant
`Syntax`; it is renamed `SyntaxError` here). -/
inductive ParseError where
  | SyntaxError
  | Overflow
deriving DecidableEq, Repr

/-- `enum TimeUnit`. -/
inductive TimeUnit where
  | NanoSecond
  | MicroSecond
  | MilliSecond
  | Second
  | Minute
  | Hour
  | Day
deriving DecidableEq, Repr

/-- `impl TryFrom<&[u8]> for TimeUnit`; the match arms compare with the byte
strings "ns", "mms", "ms", "s", "m", "h", "d". -/
def TimeUnit.tryFrom (value : List Nat) : Except ParseError TimeUnit :=
  if value = [110, 115] then .ok .NanoSecond
  else if value = [109, 109, 115] then .ok .MicroSecond
  else if value = [109, 115] then .ok .MilliSecond
  else if value = [115] then .ok .Second
  else if value = [109] then .ok .Minute
  else if value = [104] then .ok .Hour
  else if value = [100] then .ok .Day
  else .error .SyntaxError

/-- `struct Seconds<'a>(Option<&'a [u8]>, Option<&'a [u8]>, Option<usize>)`:
an intermediate representation of seconds, optionally appending `usize`
amount of zeroes. -/
structure Seconds where
  fst : Option (List Nat)
  snd : Option (List Nat)
  zeroes : Option Nat
deriving DecidableEq, Repr

/-- `const ZERO: Self = Seconds(None, None, None)`. -/
def Seconds.ZERO : Seconds := ⟨none, none, none⟩

/-- The digit loop of `Seconds::parse`: `seconds.checked_mul(10)` followed by
`checked_add(digit)`; the combined check fails exactly when
`seconds * 10 + digit` exceeds `u64::MAX`. -/
def secondsGo : List Nat → Nat → Except ParseError Nat
  | [], seconds => .ok seconds
  | c :: rest, seconds =>
    if seconds * 10 + c ≤ SECONDS_MAX then secondsGo rest (seconds * 10 + c)
    else .error .Overflow

/-- `Seconds::parse`: fold the two optional slices followed by
`min(zeroes, 20)` zero digits (20 is the number of digits of `u64::MAX`). -/
def Seconds.parse (s : Seconds) : Except ParseError Nat :=
  let num_zeroes := min (s.zeroes.getD 0) 20
  secondsGo (s.fst.getD [] ++ s.snd.getD [] ++ List.replicate num_zeroes 0) 0

/-- `struct Nanos<'a>(Option<usize>, Option<&'a [u8]>, Option<&'a [u8]>)`:
an intermediate representation of nano seconds, optionally prepending
`usize` amount of zeroes. -/
structure Nanos where
  zeroes : Option Nat
  fst : Option (List Nat)
  snd : Option (List Nat)
deriving DecidableEq, Repr

/-- `const ZERO: Self = Nanos(None, None, None)`. -/
def Nanos.ZERO : Nanos := ⟨none, none, none⟩

/-- The digit loop of `Nanos::parse`: `nanos += digit * multi; multi /= 10`. -/
def nanosGo : List Nat → Nat → Nat → Nat
  | [], _, nanos => nanos
  | c :: rest, multi, nanos => nanosGo rest (multi / 10) (nanos + c * multi)

/-- `Nanos::parse`: at most the first 9 digits are read, starting with weight
`100_000_000`; `min(zeroes, 9)` zero digits are prepended. -/
def Nanos.parse (n : Nanos) : Nat :=
  let num_zeroes := min (n.zeroes.getD 0) 9
  nanosGo ((List.replicate num_zeroes 0 ++ n.fst.getD [] ++ n.snd.getD []).take 9)
    100000000 0

/-- `std::time::Duration` restricted to what the source uses: the pair of
seconds and nanoseconds. -/
structure Duration where
  secs : Nat
  nanos : Nat
deriving DecidableEq, Repr

/-- `Duration::new(secs, nanos)`: like the standard library, nanoseconds at or
above `10^9` carry over into the seconds. -/
def Duration.new (secs nanos : Nat) : Duration :=
  ⟨secs + nanos / 1000000000, nanos % 1000000000⟩

/-- `Duration::ZERO`. -/
def Duration.ZERO : Duration := ⟨0, 0⟩

/-- `Duration::MAX = Duration::new(u64::MAX, 999_999_999)`. -/
def Duration.MAX : Duration := ⟨SECONDS_MAX, NANOS_MAX⟩

/-- `struct DurationRepr` of `src/lib.rs`. The `i16` exponent is modelled as
an `Int` (the scanner only ever stores values in `-1022..=1023`). -/
structure DurationRepr where
  is_negative : Bool
  is_infinite : Bool
  whole : Option (List Nat)
  fract : Option (List Nat)
  exponent : Int
  unit : TimeUnit
deriving DecidableEq, Repr

/-- The five-way `match self.exponent.cmp(&0)` of `DurationRepr::parse`,
selecting the `Seconds` and `Nanos` views of the digit slices. -/
def partition (exponent : Int) (whole fract : List Nat) : Seconds × Nanos :=
  let exponent_abs : Nat := exponent.natAbs
  if exponent < 0 then
    if exponent_abs < whole.length then
      (⟨some (whole.take (whole.length - exponent_abs)), none, none⟩,
       ⟨none, some (whole.drop (whole.length - exponent_abs)), some fract⟩)
    else
      (Seconds.ZERO, ⟨some (exponent_abs - whole.length), some whole, some fract⟩)
  else if exponent = 0 then
    (⟨some whole, none, none⟩, ⟨none, some fract, none⟩)
  else
    if exponent_abs < fract.length then
      (⟨some whole, some (fract.take exponent_abs), none⟩,
       ⟨none, some (fract.drop exponent_abs), none⟩)
    else
      (⟨some whole, some fract, some (exponent_abs - fract.length)⟩, Nanos.ZERO)

/-- `DurationRepr::parse`: evaluate the representation into a `Duration`.
A seconds overflow saturates to `(SECONDS_MAX, NANOS_MAX)`; a negative input
is only accepted when the magnitude is zero. -/
def DurationRepr.parse (r : DurationRepr) : Except ParseError Duration :=
  if r.is_infinite then
    if r.is_negative then .error .SyntaxError else .ok Duration.MAX
  else
    match r.whole, r.fract with
    | none, none => .error .SyntaxError
    | w, f =>
      let whole := w.getD []
      let fract := f.getD []
      let p := partition r.exponent whole fract
      let sn : Nat × Nat :=
        match p.1.parse with
        | .ok seconds => (seconds, p.2.parse)
        | .error _ => (SECONDS_MAX, NANOS_MAX)
      if r.is_negative = true ∧ sn.1 = 0 ∧ sn.2 = 0 then .ok Duration.ZERO
      else if r.is_negative = true then .error .SyntaxError
      else .ok (Duration.new sn.1 sn.2)

/-- `DurationParser::parse_sign_is_negative`: consume a leading `+`/`-`. -/
def parse_sign_is_negative (l : List Nat) : Except ParseError (Bool × List Nat) :=
  match l with
  | b :: rest =>
    if b = 43 then .ok (false, rest)
    else if b = 45 then .ok (true, rest)
    else .ok (false, l)
  | [] => .error .SyntaxError

/-- The loop of `DurationParser::parse_digits`: push `byte - b'0'` while the
byte is a digit and the countdown `max` is positive; digits beyond `max` are
consumed but not stored. -/
def parse_digitsGo : Nat → List Nat → List Nat → List Nat × List Nat
  | _, digits, [] => (digits, [])
  | mx, digits, b :: rest =>
    let digit := wsub0 b
    if digit < 10 then
      if 0 < mx then parse_digitsGo (mx - 1) (digits ++ [digit]) rest
      else parse_digitsGo mx digits rest
    else (digits, b :: rest)

/-- `DurationParser::parse_digits`: an empty digit run is a syntax error. -/
def parse_digits (mx : Nat) (l : List Nat) : Except ParseError (List Nat × List Nat) :=
  let p := parse_digitsGo mx [] l
  if p.1.isEmpty then .error .SyntaxError else .ok p

/-- The loop of `DurationParser::parse_infinity` over the expected bytes of
"infinity"; reaching the end of input at position 3 accepts the short "inf". -/
def infinityGo : List Nat → Nat → List Nat → Except ParseError Unit
  | [], _, rest => if rest.isEmpty then .ok () else .error .SyntaxError
  | _ :: _, pos, [] => if pos = 3 then .ok () else .error .SyntaxError
  | x :: xs, pos, c :: cs =>
    if eq_ignore_ascii_case c x then infinityGo xs (pos + 1) cs
    else .error .SyntaxError

/-- `DurationParser::parse_infinity`. -/
def parse_infinity (l : List Nat) : Except ParseError Unit :=
  infinityGo [105, 110, 102, 105, 110, 105, 116, 121] 0 l

/-- Two's complement wrap-around of `i16` arithmetic. -/
def i16wrap (n : Int) : Int := (n + 32768) % 65536 - 32768

/-- The digit loop of `DurationParser::parse_exponent` with the machine
semantics of the unguarded `i16` update `exponent * 10 + digit`
(two's complement wrap-around): continue while the accumulated value stays at
or below 1022 (negative sign) or 1023 (positive sign), else `Overflow`. -/
def parse_exponentGo (is_negative : Bool) : List Nat → Int → Except ParseError (Int × List Nat)
  | [], exponent => .ok (exponent, [])
  | b :: rest, exponent =>
    let digit := wsub0 b
    if digit < 10 then
      let exponent := i16wrap (exponent * 10 + digit)
      if (is_negative = true ∧ exponent ≤ 1022) ∨ (is_negative = false ∧ exponent ≤ 1023) then
        parse_exponentGo is_negative rest exponent
      else .error .Overflow
    else .ok (exponent, b :: rest)

/-- The same loop with exact integer arithmetic instead of `i16` wrap-around;
the safety claim about the loop is that this coincides with
`parse_exponentGo` from the initial accumulator 0. -/
def parse_exponentGoPure (is_negative : Bool) : List Nat → Int → Except ParseError (Int × List Nat)
  | [], exponent => .ok (exponent, [])
  | b :: rest, exponent =>
    let digit := wsub0 b
    if digit < 10 then
      let exponent := exponent * 10 + digit
      if (is_negative = true ∧ exponent ≤ 1022) ∨ (is_negative = false ∧ exponent ≤ 1023) then
        parse_exponentGoPure is_negative rest exponent
      else .error .Overflow
    else .ok (exponent, b :: rest)

/-- `DurationParser::parse_exponent`: optional sign, digit loop, final
negation. -/
def parse_exponent (l : List Nat) : Except ParseError (Int × List Nat) :=
  match parse_sign_is_negative l with
  | .error e => .error e
  | .ok (is_negative, l1) =>
    match parse_exponentGo is_negative l1 0 with
    | .error e => .error e
    | .ok (exponent, rest) =>
      .ok (if is_negative then -exponent else exponent, rest)

/-- The loop of `DurationParser::parse_time_unit`: collect at most 3 bytes. -/
def parse_time_unitGo : Nat → List Nat → List Nat → List Nat × List Nat
  | _, bytes, [] => (bytes, [])
  | 0, bytes, l => (bytes, l)
  | m + 1, bytes, b :: rest => parse_time_unitGo m (bytes ++ [b]) rest

/-- `DurationParser::parse_time_unit`. -/
def parse_time_unit (l : List Nat) : Except ParseError (TimeUnit × List Nat) :=
  let p := parse_time_unitGo 3 [] l
  match TimeUnit.tryFrom p.1 with
  | .error e => .error e
  | .ok u => .ok (u, p.2)

/-- Final two stages of `DurationParser::parse`: the optional time unit and
the end-of-input check. -/
def parseUnitStage (neg : Bool) (whole fract : Option (List Nat)) (exponent : Int)
    (l : List Nat) : Except ParseError DurationRepr :=
  match l with
  | [] => .ok ⟨neg, false, whole, fract, exponent, .Second⟩
  | _ :: _ =>
    match parse_time_unit l with
    | .error e => .error e
    | .ok (u, rest) =>
      match rest with
      | [] => .ok ⟨neg, false, whole, fract, exponent, u⟩
      | _ :: _ => .error .SyntaxError

/-- Exponent stage of `DurationParser::parse`: at this point the current byte
is either `e`/`E`, something else (syntax error), or the end of the input. -/
def parseExpStage (neg : Bool) (whole fract : Option (List Nat))
    (l : List Nat) : Except ParseError DurationRepr :=
  match l with
  | [] => .ok ⟨neg, false, whole, fract, 0, .Second⟩
  | b :: rest =>
    if eq_ignore_ascii_case b 101 then
      match parse_exponent rest with
      | .error e => .error e
      | .ok (exponent, l2) => parseUnitStage neg whole fract exponent l2
    else .error .SyntaxError

/-- Fraction stage of `DurationParser::parse`. -/
def parseFractStage (neg : Bool) (whole : Option (List Nat))
    (l : List Nat) : Except ParseError DurationRepr :=
  match l with
  | [] => .ok ⟨neg, false, whole, none, 0, .Second⟩
  | b :: rest =>
    if b = 46 then
      match rest with
      | [] => .ok ⟨neg, false, whole, none, 0, .Second⟩
      | c :: _ =>
        if is_ascii_digit c then
          match parse_digits 1033 rest with
          | .error e => .error e
          | .ok (fr, l2) => parseExpStage neg whole (some fr) l2
        else if eq_ignore_ascii_case c 101 then parseExpStage neg whole none rest
        else .error .SyntaxError
    else if eq_ignore_ascii_case b 101 then parseExpStage neg whole none l
    else .error .SyntaxError

/-- First stage of `DurationParser::parse` after the sign: infinity, the whole
number part, or a leading decimal point. -/
def parseWholeStage (neg : Bool) (l : List Nat) : Except ParseError DurationRepr :=
  match l with
  | [] => .error .SyntaxError
  | b :: _ =>
    if b = 105 ∨ b = 73 then
      match parse_infinity l with
      | .error e => .error e
      | .ok _ => .ok ⟨neg, true, none, none, 0, .Second⟩
    else if is_ascii_digit b then
      match parse_digits 1043 l with
      | .error e => .error e
      | .ok (w, l2) => parseFractStage neg (some w) l2
    else if b = 46 then parseFractStage neg none l
    else .error .SyntaxError

/-- `DurationParser::parse`. -/
def DurationParser.parse (input : List Nat) : Except ParseError DurationRepr :=
  match parse_sign_is_negative input with
  | .error e => .error e
  | .ok (neg, l1) => parseWholeStage neg l1

/-- `parser.parse().and_then(|mut repr| repr.parse())` inside
`parse_duration`, before the error is erased into a `String`. -/
def parse_durationE (input : List Nat) : Except ParseError Duration :=
  match DurationParser.parse input with
  | .error e => .error e
  | .ok r => r.parse

/-- `pub fn parse_duration`. -/
def parse_duration (input : List Nat) : Except String Duration :=
  match parse_durationE input with
  | .ok d => .ok d
  | .error _ => .error ("Error parsing duration")

end Simple

namespace Core

/-! Embedding of `src/parsing/repr_parser.rs`.  The cursor of `ReprParser` is
modelled by the pair of the remaining input (`rem = input.drop pos`) and the
current position `pos`. -/

/-- `crate::TimeUnit` (declared outside src/; variants from §3 of the spec). -/
inductive TimeUnit where
  | NanoSecond
  | MicroSecond
  | MilliSecond
  | Second
  | Minute
  | Hour
  | Day
  | Week
  | Month
  | Year
deriving DecidableEq, Repr

/-- `Multiplier(m, e)` from `crate::time` (declared outside src/),
representing `m * 10 ^ e`. -/
structure Multiplier where
  m : Int
  e : Int
deriving DecidableEq, Repr

/-- Modelled from the spec: `crate::config::Config` is not under src/; the
fields are exactly the ones destructured by `ReprParser::parse` (§3 of the
spec), with the `Delimiter` predicates as boolean byte predicates. -/
structure Config where
  default_unit : TimeUnit
  default_multiplier : Multiplier
  disable_exponent : Bool
  disable_fraction : Bool
  max_exponent : Int
  min_exponent : Int
  number_is_optional : Bool
  allow_delimiter : Option (Nat → Bool)
  disable_infinity : Bool
  parse_multiple : Option (Nat → Bool)

/-- `Config::new()` with the defaults of `fundu-core/src/config.rs`. -/
def Config.new : Config where
  default_unit := .Second
  default_multiplier := ⟨1, 0⟩
  disable_exponent := false
  disable_fraction := false
  max_exponent := 32767
  min_exponent := -32768
  number_is_optional := false
  allow_delimiter := none
  disable_infinity := false
  parse_multiple := none

/-- The `TimeUnitsLike` capability (trait declared outside src/): `is_empty`
and `get`, with the identifier given by its bytes. -/
structure TimeUnits where
  is_empty : Bool
  get : List Nat → Option (TimeUnit × Multiplier)

/-- An empty table, like the `TimeUnitsFixture` of the repository tests. -/
def TimeUnits.empty : TimeUnits := ⟨true, fun _ => none⟩

/-- `Whole(usize)` from `super::repr` (declared outside src/): the length of
the whole-digit prefix of the digit buffer. -/
structure Whole where
  len : Nat
deriving DecidableEq, Repr

/-- `Fract(usize, usize)` from `super::repr` (declared outside src/): the
half-open span of the fraction digits inside the digit buffer (`stop` models
the field the source calls `end`). -/
structure Fract where
  start : Nat
  stop : Nat
deriving DecidableEq, Repr

/-- The digit buffer: a `Vec<u8>` of raw digit values together with its
allocated capacity (`Vec::with_capacity(n)` is modelled as allocating exactly
`n`; the scanner never pushes past the allocation, see the capacity
arithmetic in `parse_whole`/`parse_fract`). -/
structure DigitBuf where
  data : List Nat
  cap : Nat
deriving DecidableEq, Repr

/-- Modelled from the spec: `DurationRepr` of `super::repr` (declared outside
src/), the IR of §3 of the spec as constructed by `ReprParser::parse`. -/
structure DurationRepr where
  is_negative : Bool := false
  is_infinite : Bool := false
  digits : Option DigitBuf := none
  whole : Option Whole := none
  fract : Option Fract := none
  exponent : Int := 0
  unit : TimeUnit := .Second
  multiplier : Multiplier := ⟨1, 0⟩
  number_is_optional : Bool := false
deriving DecidableEq, Repr

/-- `crate::ParseError` (declared outside src/): the kinds used by
`ReprParser`, with the interpolated parts of the messages elided.  `Panic`
models the `unreachable!` at the end of `ReprParser::parse`. -/
inductive ParseError where
  | Empty
  | SyntaxError (pos : Nat) (msg : String)
  | TimeUnitError (pos : Nat) (msg : String)
  | PositiveExponentOverflow
  | NegativeExponentOverflow
  | Panic
deriving DecidableEq, Repr

/-- Little-endian interpretation of a byte list as an unsigned integer;
for an 8-byte list this is `u64::from_le(ptr.read_unaligned())`. -/
def ofBytesLE : List Nat → Nat
  | [] => 0
  | b :: bs => b + 256 * ofBytesLE bs

/-- The eight bytes of a 64-bit word, least significant first: the unaligned
8-byte store used by the fast digit path. -/
def bytesLE8 (w : Nat) : List Nat :=
  [w % 256, w / 256 % 256, w / 256 ^ 2 % 256, w / 256 ^ 3 % 256,
   w / 256 ^ 4 % 256, w / 256 ^ 5 % 256, w / 256 ^ 6 % 256, w / 256 ^ 7 % 256]

/-- The masked-arithmetic digit test of `ReprParser::is_8_digits` on a 64-bit
word; the addition is `u64::wrapping_add`. -/
def swarTest (w : Nat) : Bool :=
  (w &&& ((w + 0x0606060606060606) % 2 ^ 64) &&& 0xf0f0f0f0f0f0f0f0)
    == 0x3030303030303030

/-- `ReprParser::is_8_digits`: true iff 8 bytes exist at `pos` and the SWAR
test passes on their little-endian 64-bit load. -/
def is_8_digits (input : List Nat) (pos : Nat) : Bool :=
  if pos + 8 ≤ input.length then swarTest (ofBytesLE ((input.drop pos).take 8))
  else false

/-- The low `k` bytes of the SWAR constant `0x0606...06`, built bytewise
(`swarM 8` is the full 64-bit constant). -/
def swarM : Nat → Nat
  | 0 => 0
  | k + 1 => 6 + 256 * swarM k

/-- The low `k` bytes of the SWAR mask `0xf0f0...f0`, built bytewise. -/
def swarH : Nat → Nat
  | 0 => 0
  | k + 1 => 240 + 256 * swarH k

/-- The low `k` bytes of the SWAR target `0x3030...30`, built bytewise. -/
def swarL : Nat → Nat
  | 0 => 0
  | k + 1 => 48 + 256 * swarL k

/-- `ReprParser::parse_8_digits` acting on the remainder: on success return
the packed digit word `num - 0x3030303030303030`, the remainder after the 8
consumed bytes, and the advanced position. -/
def parse_8_digits (rem : List Nat) (pos : Nat) : Option (Nat × List Nat × Nat) :=
  match rem with
  | b0 :: b1 :: b2 :: b3 :: b4 :: b5 :: b6 :: b7 :: rest =>
    let num := ofBytesLE [b0, b1, b2, b3, b4, b5, b6, b7]
    if swarTest num then some (num - 0x3030303030303030, rest, pos + 8)
    else none
  | _ => none

/-- The byte-by-byte loop of `parse_whole`: push the digit while the local
capacity is positive and, while stripping, the digit is nonzero. -/
def wholeSlowGo (capacity : Nat) : Bool → List Nat → List Nat → Nat →
    List Nat × List Nat × Nat
  | _, data, [], pos => (data, [], pos)
  | strip, data, b :: rest, pos =>
    let digit := wsub0 b
    if digit < 10 then
      if 0 < capacity ∧ (strip = false ∨ digit ≠ 0) then
        wholeSlowGo capacity false (data ++ [digit]) rest (pos + 1)
      else wholeSlowGo capacity strip data rest (pos + 1)
    else (data, b :: rest, pos)

/-- The fast 8-digit loop of `parse_whole` (`while let Some(eight) =
self.parse_8_digits()`, here with `parse_8_digits` inlined): store a packed
block while at least 8 bytes of capacity remain and, while stripping, the
block is nonzero; blocks are always consumed from the input. -/
def wholeFastGo : Bool → Nat → List Nat → List Nat → Nat →
    Bool × Nat × List Nat × List Nat × Nat
  | strip, capacity, data, b0 :: b1 :: b2 :: b3 :: b4 :: b5 :: b6 :: b7 :: rest, pos =>
    let num := ofBytesLE [b0, b1, b2, b3, b4, b5, b6, b7]
    if swarTest num then
      let eight := num - 0x3030303030303030
      if 8 ≤ capacity ∧ (strip = false ∨ eight ≠ 0) then
        wholeFastGo false (capacity - 8) (data ++ bytesLE8 eight) rest (pos + 8)
      else wholeFastGo strip capacity data rest (pos + 8)
    else (strip, capacity, data, b0 :: b1 :: b2 :: b3 :: b4 :: b5 :: b6 :: b7 :: rest, pos)
  | strip, capacity, data, rem, pos => (strip, capacity, data, rem, pos)

/-- `ReprParser::parse_whole`. -/
def parse_whole (buf : DigitBuf) (rem : List Nat) (pos : Nat) :
    Whole × DigitBuf × List Nat × Nat :=
  let capacity := buf.cap
  if 8 ≤ capacity ∧ is_8_digits rem 0 then
    let (strip2, cap2, data2, rem2, pos2) := wholeFastGo true capacity buf.data rem pos
    let (data3, rem3, pos3) := wholeSlowGo cap2 strip2 data2 rem2 pos2
    (⟨data3.length⟩, ⟨data3, buf.cap⟩, rem3, pos3)
  else
    match rem with
    | [] => (⟨buf.data.length⟩, buf, [], pos)
    | b :: rest =>
      let digit := b - 48
      let data := if digit ≠ 0 then buf.data ++ [digit] else buf.data
      let strip := digit == 0
      let (data3, rem3, pos3) := wholeSlowGo capacity strip data rest (pos + 1)
      (⟨data3.length⟩, ⟨data3, buf.cap⟩, rem3, pos3)

/-- The byte-by-byte loop of `parse_fract`: every digit is pushed while the
local capacity is positive (leading zeros are kept). -/
def fractSlowGo (capacity : Nat) : List Nat → List Nat → Nat →
    List Nat × List Nat × Nat
  | data, [], pos => (data, [], pos)
  | data, b :: rest, pos =>
    let digit := wsub0 b
    if digit < 10 then
      if 0 < capacity then fractSlowGo capacity (data ++ [digit]) rest (pos + 1)
      else fractSlowGo capacity data rest (pos + 1)
    else (data, b :: rest, pos)

/-- The fast 8-digit loop of `parse_fract` (`while let Some(eight) =
self.parse_8_digits()` with `parse_8_digits` inlined): store packed blocks
verbatim while at least 8 bytes of capacity remain. -/
def fractFastGo : Nat → List Nat → List Nat → Nat →
    Nat × List Nat × List Nat × Nat
  | capacity, data, b0 :: b1 :: b2 :: b3 :: b4 :: b5 :: b6 :: b7 :: rest, pos =>
    let num := ofBytesLE [b0, b1, b2, b3, b4, b5, b6, b7]
    if swarTest num then
      let eight := num - 0x3030303030303030
      if 8 ≤ capacity then fractFastGo (capacity - 8) (data ++ bytesLE8 eight) rest (pos + 8)
      else fractFastGo capacity data rest (pos + 8)
    else (capacity, data, b0 :: b1 :: b2 :: b3 :: b4 :: b5 :: b6 :: b7 :: rest, pos)
  | capacity, data, rem, pos => (capacity, data, rem, pos)

/-- `ReprParser::parse_fract`. -/
def parse_fract (buf : DigitBuf) (rem : List Nat) (pos : Nat) :
    Fract × DigitBuf × List Nat × Nat :=
  let capacity := buf.cap - buf.data.length
  let start := buf.data.length
  if 8 ≤ capacity ∧ is_8_digits rem 0 then
    let (cap2, data2, rem2, pos2) := fractFastGo capacity buf.data rem pos
    let (data3, rem3, pos3) := fractSlowGo cap2 data2 rem2 pos2
    (⟨start, data3.length⟩, ⟨data3, buf.cap⟩, rem3, pos3)
  else
    match rem with
    | [] => (⟨start, buf.data.length⟩, buf, [], pos)
    | b :: rest =>
      let digit := b - 48
      let (data3, rem3, pos3) := fractSlowGo capacity (buf.data ++ [digit]) rest (pos + 1)
      (⟨start, data3.length⟩, ⟨data3, buf.cap⟩, rem3, pos3)

/-- `ReprParser::consume_delimiter`. -/
def consume_delimiter (delimiter : Nat → Bool) : List Nat → Nat → List Nat × Nat
  | [], pos => ([], pos)
  | b :: rest, pos =>
    if delimiter b then consume_delimiter delimiter rest (pos + 1)
    else (b :: rest, pos)

/-- `ReprParser::try_consume_delimiter`: consume the delimiter run; the input
must not end inside it. -/
def try_consume_delimiter (delimiter : Nat → Bool) (rem : List Nat) (pos : Nat) :
    Except ParseError (List Nat × Nat) :=
  let start := pos
  let p := consume_delimiter delimiter (rem.drop 1) (pos + 1)
  match p.1 with
  | [] =>
    if 0 < p.2 - start then
      .error (.SyntaxError start ("Input may not end with a delimiter"))
    else .ok ([], p.2)
  | _ :: _ => .ok p

/-- `ReprParser::parse_sign_is_negative`. -/
def rparse_sign_is_negative (rem : List Nat) (pos : Nat) :
    Except ParseError (Bool × List Nat × Nat) :=
  match rem with
  | b :: rest =>
    if b = 43 then .ok (false, rest, pos + 1)
    else if b = 45 then .ok (true, rest, pos + 1)
    else .ok (false, b :: rest, pos)
  | [] => .error (.SyntaxError pos ("Unexpected end of input"))

/-- The digit loop of `ReprParser::parse_exponent`: `i16` checked
multiply-then-add/sub; the range tests spell out exactly when
`checked_mul(10)` followed by `checked_add`/`checked_sub` returns `None`. -/
def exponentGo (is_negative : Bool) : List Nat → Nat → Int →
    Except ParseError (Int × List Nat × Nat)
  | [], pos, exponent => .ok (exponent, [], pos)
  | b :: rest, pos, exponent =>
    let digit := wsub0 b
    if digit < 10 then
      if is_negative then
        let m := exponent * 10
        if -32768 ≤ m ∧ m ≤ 32767 ∧ -32768 ≤ m - digit ∧ m - digit ≤ 32767 then
          exponentGo is_negative rest (pos + 1) (m - digit)
        else .error .NegativeExponentOverflow
      else
        let m := exponent * 10
        if -32768 ≤ m ∧ m ≤ 32767 ∧ -32768 ≤ m + digit ∧ m + digit ≤ 32767 then
          exponentGo is_negative rest (pos + 1) (m + digit)
        else .error .PositiveExponentOverflow
    else .ok (exponent, b :: rest, pos)

/-- `ReprParser::parse_exponent`: optional sign, then at least one byte must
remain, then the checked digit loop (the sign is folded into the
accumulation, no final negation). -/
def rparse_exponent (rem : List Nat) (pos : Nat) :
    Except ParseError (Int × List Nat × Nat) :=
  match rparse_sign_is_negative rem pos with
  | .error e => .error e
  | .ok (is_negative, rem1, pos1) =>
    match rem1 with
    | [] => .error (.SyntaxError pos1 ("Expected exponent but reached end of input"))
    | _ :: _ => exponentGo is_negative rem1 pos1 0

/-- The identifier scan of `parse_time_unit` in `parse_multiple` mode: read
bytes up to the next delimiter, digit, or the end of input. -/
def takeUnitBytes (delimiter : Nat → Bool) : List Nat → Nat →
    List Nat × List Nat × Nat
  | [], pos => ([], [], pos)
  | b :: rest, pos =>
    if delimiter b || is_ascii_digit b then ([], b :: rest, pos)
    else
      let p := takeUnitBytes delimiter rest (pos + 1)
      (b :: p.1, p.2.1, p.2.2)

/-- Modelled from the spec: UTF-8 validation of `std::str::from_utf8` (the
standard library is not under src/), returning `some index` of the first
invalid byte like `Utf8Error::valid_up_to`. -/
def utf8ValidUpTo : List Nat → Nat → Option Nat
  | [], _ => none
  | b :: rest, idx =>
    if b < 128 then utf8ValidUpTo rest (idx + 1)
    else if 194 ≤ b ∧ b ≤ 223 then
      match rest with
      | c :: rest2 =>
        if 128 ≤ c ∧ c ≤ 191 then utf8ValidUpTo rest2 (idx + 2) else some idx
      | [] => some idx
    else if 224 ≤ b ∧ b ≤ 239 then
      match rest with
      | c :: d :: rest2 =>
        let lo := if b = 224 then 160 else 128
        let hi := if b = 237 then 159 else 191
        if lo ≤ c ∧ c ≤ hi ∧ 128 ≤ d ∧ d ≤ 191 then utf8ValidUpTo rest2 (idx + 3)
        else some idx
      | _ => some idx
    else if 240 ≤ b ∧ b ≤ 244 then
      match rest with
      | c :: d :: x :: rest2 =>
        let lo := if b = 240 then 144 else 128
        let hi := if b = 244 then 143 else 191
        if lo ≤ c ∧ c ≤ hi ∧ 128 ≤ d ∧ d ≤ 191 ∧ 128 ≤ x ∧ x ≤ 191 then
          utf8ValidUpTo rest2 (idx + 4)
        else some idx
      | _ => some idx
    else some idx

/-- `ReprParser::parse_time_unit`. -/
def rparse_time_unit (tu : TimeUnits) (multiple : Option (Nat → Bool))
    (rem : List Nat) (pos : Nat) :
    Except ParseError (Option (TimeUnit × Multiplier) × List Nat × Nat) :=
  match multiple with
  | some delimiter =>
    let start := pos
    let p := takeUnitBytes delimiter rem pos
    match utf8ValidUpTo p.1 0 with
    | some k =>
      .error (.TimeUnitError (start + k) ("Invalid utf-8 when applying the delimiter"))
    | none =>
      if p.1.isEmpty then .ok (none, p.2.1, p.2.2)
      else
        match tu.get p.1 with
        | none => .error (.TimeUnitError start ("Invalid time unit"))
        | some um => .ok (some um, p.2.1, p.2.2)
  | none =>
    match tu.get rem with
    | none => .error (.TimeUnitError pos ("Invalid time unit"))
    | some um => .ok (some um, [], pos + rem.length)

/-- The loop of `parse_infinity_remainder` over the bytes of "inity". -/
def inityGo : List Nat → List Nat → Nat → Except ParseError (List Nat × Nat)
  | [], rem, pos => .ok (rem, pos)
  | x :: xs, rem, pos =>
    match rem with
    | c :: cs =>
      if eq_ignore_ascii_case c x then inityGo xs cs (pos + 1)
      else .error (.SyntaxError pos ("Error parsing infinity: Invalid character"))
    | [] =>
      .error (.SyntaxError pos ("Error parsing infinity: Premature end of input"))

/-- `ReprParser::parse_infinity_remainder`: after the bytes "inf", either a
delimiter run (`parse_multiple`), the end of input, or "inity" followed by a
delimiter run or the end of input. -/
def parse_infinity_remainder (multiple : Option (Nat → Bool)) (rem : List Nat)
    (pos : Nat) : Except ParseError (List Nat × Nat) :=
  match rem with
  | [] => .ok ([], pos)
  | b :: _ =>
    match multiple with
    | some delimiter =>
      if delimiter b then try_consume_delimiter delimiter rem pos
      else
        match inityGo [105, 110, 105, 116, 121] rem pos with
        | .error e => .error e
        | .ok (rem2, pos2) =>
          match rem2 with
          | [] => .ok ([], pos2)
          | c :: _ =>
            if delimiter c then try_consume_delimiter delimiter rem2 pos2
            else
              .error (.SyntaxError pos2 ("Error parsing infinity: Expected a delimiter"))
    | none => inityGo [105, 110, 105, 116, 121] rem pos

/-- `bytes.eq_ignore_ascii_case(b"inf")` on the result of `peek(3)`. -/
def infPeek (l : List Nat) : Bool :=
  match l with
  | [a, b, c] =>
    eq_ignore_ascii_case a 105 && eq_ignore_ascii_case b 110 &&
      eq_ignore_ascii_case c 102
  | _ => false

/-- `i16 as usize`: sign extension reinterpreted as 64-bit unsigned. -/
def usizeOfI16 (e : Int) : Nat := (e % 2 ^ 64).toNat

/-- Final stage of `ReprParser::parse`: the end-of-input check, or the hand
over to the next segment in `parse_multiple` mode.  `ParseError.Panic` models
the `unreachable!` of the source. -/
def rstageFinal (c : Config) (r : DurationRepr) (rem : List Nat) (pos : Nat) :
    Except ParseError (DurationRepr × Option (List Nat × Nat)) :=
  match rem, c.parse_multiple with
  | b :: _, some delimiter =>
    if delimiter b then
      match try_consume_delimiter delimiter rem pos with
      | .error e => .error e
      | .ok p => .ok (r, some p)
    else .ok (r, some (rem, pos))
  | _ :: _, none => .error .Panic
  | [], _ => .ok (r, none)

/-- Time-unit stage of `ReprParser::parse`. -/
def rstageUnit (c : Config) (tu : TimeUnits) (r : DurationRepr) (rem : List Nat)
    (pos : Nat) : Except ParseError (DurationRepr × Option (List Nat × Nat)) :=
  match rem with
  | [] => .ok (r, none)
  | _ :: _ =>
    if tu.is_empty = false then
      match rparse_time_unit tu c.parse_multiple rem pos with
      | .error e => .error e
      | .ok (um, rem2, pos2) =>
        match um with
        | some u => rstageFinal c { r with unit := u.1, multiplier := u.2 } rem2 pos2
        | none => rstageFinal c r rem2 pos2
    else if c.parse_multiple.isNone then
      .error (.TimeUnitError pos ("No time units allowed"))
    else rstageFinal c r rem pos

/-- Delimiter stage of `ReprParser::parse`: consume a delimiter run between
the number and the time unit. -/
def rstageDelim (c : Config) (tu : TimeUnits) (r : DurationRepr) (rem : List Nat)
    (pos : Nat) : Except ParseError (DurationRepr × Option (List Nat × Nat)) :=
  match rem, c.allow_delimiter with
  | b :: rest, some delimiter =>
    if delimiter b then
      let p := consume_delimiter delimiter rest (pos + 1)
      rstageUnit c tu r p.1 p.2
    else rstageUnit c tu r (b :: rest) pos
  | _ :: _, none => rstageUnit c tu r rem pos
  | [], _ => .ok (r, none)

/-- Exponent stage of `ReprParser::parse`. -/
def rstageExp (c : Config) (tu : TimeUnits) (r : DurationRepr) (rem : List Nat)
    (pos : Nat) : Except ParseError (DurationRepr × Option (List Nat × Nat)) :=
  match rem with
  | [] => .ok (r, none)
  | b :: rest =>
    if eq_ignore_ascii_case b 101 = true ∧ c.disable_exponent = false then
      match rparse_exponent rest (pos + 1) with
      | .error e => .error e
      | .ok (exponent, rem2, pos2) =>
        rstageDelim c tu { r with exponent := exponent } rem2 pos2
    else if eq_ignore_ascii_case b 101 then
      .error (.SyntaxError pos ("No exponent allowed"))
    else rstageDelim c tu r rem pos

/-- Fraction stage of `ReprParser::parse`, with the capacity planning of the
digit buffer (`try_reserve_exact` grows the capacity to at least
`len + min((max_exponent as usize) + 25, needed)`). -/
def rstageFract (c : Config) (tu : TimeUnits) (r : DurationRepr) (rem : List Nat)
    (pos : Nat) : Except ParseError (DurationRepr × Option (List Nat × Nat)) :=
  match rem with
  | [] => .ok (r, none)
  | b :: rest =>
    if b = 46 ∧ c.disable_fraction = false then
      match rest with
      | [] =>
        if r.whole.isNone then
          .error (.SyntaxError pos
            ("Either the whole number part or the fraction must be present"))
        else .ok (r, none)
      | b2 :: _ =>
        if is_ascii_digit b2 then
          let needed := rest.length
          let digits : DigitBuf :=
            match r.digits with
            | some dig =>
              if needed ≤ dig.cap - dig.data.length then dig
              else
                let mx := usizeOfI16 c.max_exponent + 25
                ⟨dig.data, max dig.cap (dig.data.length + min mx needed)⟩
            | none =>
              let mx := usizeOfI16 c.max_exponent + 25
              ⟨[], min mx needed⟩
          let (fr, buf2, rem2, pos2) := parse_fract digits rest (pos + 1)
          rstageExp c tu { r with digits := some buf2, fract := some fr } rem2 pos2
        else if r.whole.isNone then
          .error (.SyntaxError pos
            ("Either the whole number part or the fraction must be present"))
        else rstageExp c tu r rest (pos + 1)
    else if b = 46 then .error (.SyntaxError pos ("No fraction allowed"))
    else rstageExp c tu r rem pos

/-- First stage of `ReprParser::parse` after the sign: whole digits, a
leading decimal point, infinity, an optional number, or a syntax error. -/
def rstageWhole (c : Config) (tu : TimeUnits) (r : DurationRepr) (rem : List Nat)
    (pos : Nat) : Except ParseError (DurationRepr × Option (List Nat × Nat)) :=
  match rem with
  | [] => .error (.SyntaxError pos ("Unexpected end of input"))
  | b :: _ =>
    if is_ascii_digit b then
      let mx := c.min_exponent.natAbs + 32
      let buf : DigitBuf := ⟨[], min mx rem.length⟩
      let (w, buf2, rem2, pos2) := parse_whole buf rem pos
      rstageFract c tu { r with digits := some buf2, whole := some w } rem2 pos2
    else if b = 46 then rstageFract c tu r rem pos
    else if c.disable_infinity = false ∧ infPeek (rem.take 3) = true ∧ 3 ≤ rem.length then
      match parse_infinity_remainder c.parse_multiple (rem.drop 3) (pos + 3) with
      | .error e => .error e
      | .ok (rem2, pos2) =>
        let r2 := { r with is_infinite := true }
        match rem2 with
        | _ :: _ =>
          if c.parse_multiple.isSome then .ok (r2, some (rem2, pos2))
          else .error (.SyntaxError pos2 ("Expected end of input"))
        | [] => .ok (r2, none)
    else if c.number_is_optional then rstageFract c tu r rem pos
    else .error (.SyntaxError pos ("Invalid input"))

/-- `ReprParser::parse`. -/
def ReprParser.parse (c : Config) (tu : TimeUnits) (input : List Nat) :
    Except ParseError (DurationRepr × Option (List Nat × Nat)) :=
  match input with
  | [] => .error .Empty
  | _ :: _ =>
    let r : DurationRepr :=
      { unit := c.default_unit, number_is_optional := c.number_is_optional }
    match rparse_sign_is_negative input 0 with
    | .error e => .error e
    | .ok (neg, rem1, pos1) =>
      rstageWhole c tu (if neg then { r with is_negative := true } else r) rem1 pos1

end Core

/-! Specification-side definitions, written from the words of the claims and
compared with the source embedding in the theorems below. -/

/-- The base-10 integer denoted by a digit sequence (most significant digit
first). -/
def digitsVal (l : List Nat) : Nat := l.foldl (fun a d => a * 10 + d) 0

/-- The seconds digit window of the claimed five-way exponent case split. -/
def specSecondsDigits (e : Int) (W F : List Nat) : List Nat :=
  if e = 0 then W
  else if e < 0 then
    if e.natAbs < W.length then W.take (W.length - e.natAbs)
    else []
  else
    if e.natAbs < F.length then W ++ F.take e.natAbs
    else W ++ F ++ List.replicate (e.natAbs - F.length) 0

/-- The nanosecond digit window of the claimed five-way exponent case split
(implicit zeros materialized). -/
def specNanoDigits (e : Int) (W F : List Nat) : List Nat :=
  if e = 0 then F
  else if e < 0 then
    if e.natAbs < W.length then W.drop (W.length - e.natAbs) ++ F
    else List.replicate (e.natAbs - W.length) 0 ++ W ++ F
  else
    if e.natAbs < F.length then F.drop e.natAbs
    else []

/-- The full digit sequence denoted by a `Seconds` view, appended zeros
materialized without the 20-digit cut-off of `Seconds::parse`. -/
def Simple.Seconds.digitsFull (s : Simple.Seconds) : List Nat :=
  s.fst.getD [] ++ s.snd.getD [] ++ List.replicate (s.zeroes.getD 0) 0

/-- The full digit sequence denoted by a `Nanos` view, prepended zeros
materialized without the 9-digit cut-off of `Nanos::parse`. -/
def Simple.Nanos.digitsFull (n : Simple.Nanos) : List Nat :=
  List.replicate (n.zeroes.getD 0) 0 ++ n.fst.getD [] ++ n.snd.getD []

/-- The decimal digit sequence of `n` (most significant first; `0` is the
single digit 0, as in Rust's `u64` formatting). -/
def decDigits (n : Nat) : List Nat :=
  if n = 0 then [0] else (Nat.digits 10 n).reverse

/-- The decimal digit sequence of `n` zero-padded on the left to 9 digits. -/
def pad9 (n : Nat) : List Nat :=
  List.replicate (9 - (Nat.digits 10 n).length) 0 ++ (Nat.digits 10 n).reverse

/-- The bytes of the decimal string `"<s>.<n zero-padded to 9 digits>"`. -/
def decimalBytes (s n : Nat) : List Nat :=
  (decDigits s).map (· + 48) ++ [46] ++ (pad9 n).map (· + 48)

/-! ### Helper lemmas -/

open Simple in
theorem digitsVal_cons (d : Nat) (l : List Nat) (a : Nat) :
    (d :: l).foldl (fun x y => x * 10 + y) a = l.foldl (fun x y => x * 10 + y) (a * 10 + d) :=
  rfl

theorem foldl_digit_mono : ∀ (l : List Nat) (a : Nat),
    a ≤ l.foldl (fun x d => x * 10 + d) a := by
  intro l
  induction l with
  | nil => intro a; exact Nat.le_refl a
  | cons d ds ih =>
    intro a
    calc a ≤ a * 10 + d := by omega
    _ ≤ _ := ih (a * 10 + d)

theorem foldl_digit_replicate_zero (z : Nat) : ∀ (a : Nat),
    (List.replicate z 0).foldl (fun x d => x * 10 + d) a = a * 10 ^ z := by
  induction z with
  | zero => intro a; simp
  | succ k ih =>
    intro a
    rw [List.replicate_succ, List.foldl_cons, ih]
    ring

theorem digitsVal_append_zeros (l : List Nat) (z : Nat) :
    digitsVal (l ++ List.replicate z 0) = digitsVal l * 10 ^ z := by
  unfold digitsVal
  rw [List.foldl_append, foldl_digit_replicate_zero]

theorem foldl_digit_eq_ofDigits : ∀ (l : List Nat) (a : Nat),
    l.foldl (fun x d => x * 10 + d) a = a * 10 ^ l.length + Nat.ofDigits 10 l.reverse := by
  intro l
  induction l with
  | nil => intro a; simp [Nat.ofDigits]
  | cons d ds ih =>
    intro a
    rw [List.foldl_cons, ih, List.reverse_cons, Nat.ofDigits_append]
    simp [Nat.ofDigits, List.length_reverse]
    ring

theorem ofDigits_replicate_zero : ∀ (z : Nat), Nat.ofDigits 10 (List.replicate z 0) = 0 := by
  intro z
  induction z with
  | zero => rfl
  | succ k ih => rw [List.replicate_succ]; simp [Nat.ofDigits, ih]

open Simple in
theorem secondsGo_ok : ∀ (l : List Nat) (acc : Nat),
    l.foldl (fun a d => a * 10 + d) acc ≤ SECONDS_MAX →
    secondsGo l acc = .ok (l.foldl (fun a d => a * 10 + d) acc) := by
  intro l
  induction l with
  | nil => intro acc _; rfl
  | cons d ds ih =>
    intro acc h
    rw [List.foldl_cons] at h
    have hstep : acc * 10 + d ≤ SECONDS_MAX :=
      Nat.le_trans (foldl_digit_mono ds (acc * 10 + d)) h
    simp only [secondsGo, if_pos hstep]
    exact ih (acc * 10 + d) h

open Simple in
theorem secondsGo_overflow : ∀ (l : List Nat) (acc : Nat), acc ≤ SECONDS_MAX →
    SECONDS_MAX < l.foldl (fun a d => a * 10 + d) acc →
    secondsGo l acc = .error .Overflow := by
  intro l
  induction l with
  | nil => intro acc hacc h; rw [List.foldl_nil] at h; omega
  | cons d ds ih =>
    intro acc hacc h
    rw [List.foldl_cons] at h
    by_cases hstep : acc * 10 + d ≤ SECONDS_MAX
    · simp only [secondsGo, if_pos hstep]
      exact ih (acc * 10 + d) hstep h
    · simp only [secondsGo, if_neg hstep]

open Simple in
theorem nanosGo_multi_zero : ∀ (l : List Nat) (acc : Nat), nanosGo l 0 acc = acc := by
  intro l
  induction l with
  | nil => intro acc; rfl
  | cons d ds ih => intro acc; simp [nanosGo, ih]

open Simple in
theorem nanosGo_le : ∀ (l : List Nat) (m acc : Nat), 1 ≤ m → (∀ d ∈ l, d ≤ 9) →
    nanosGo l m acc ≤ acc + 10 * m - 1 := by
  intro l
  induction l with
  | nil => intro m acc hm _; simp only [nanosGo]; omega
  | cons d ds ih =>
    intro m acc hm hd
    have hd9 : d ≤ 9 := hd d (List.mem_cons_self d ds)
    have hds : ∀ x ∈ ds, x ≤ 9 := fun x hx => hd x (List.mem_cons_of_mem d hx)
    simp only [nanosGo]
    by_cases hq : m / 10 = 0
    · rw [hq, nanosGo_multi_zero]
      have : d * m ≤ 9 * m := Nat.mul_le_mul_right m hd9
      omega
    · have h1 : 1 ≤ m / 10 := Nat.one_le_iff_ne_zero.mpr hq
      have h2 : 10 * (m / 10) ≤ m := Nat.mul_div_le m 10
      have := ih (m / 10) (acc + d * m) h1 hds
      have hdm : d * m ≤ 9 * m := Nat.mul_le_mul_right m hd9
      omega

open Simple in
theorem nanosGo_value : ∀ (l : List Nat) (k acc : Nat), l.length = k + 1 →
    nanosGo l (10 ^ k) acc = acc + Nat.ofDigits 10 l.reverse := by
  intro l
  induction l with
  | nil => intro k acc h; simp at h
  | cons d ds ih =>
    intro k acc h
    simp only [List.length_cons] at h
    simp only [nanosGo]
    rcases Nat.eq_zero_or_pos k with hk | hk
    · subst hk
      have hds : ds = [] := List.length_eq_zero.mp (by omega)
      subst hds
      simp [nanosGo, Nat.ofDigits]
    · obtain ⟨k', rfl⟩ : ∃ k', k = k' + 1 := ⟨k - 1, by omega⟩
      have hpow : 10 ^ (k' + 1) / 10 = 10 ^ k' := by
        rw [pow_succ, Nat.mul_div_cancel]
        omega
      rw [hpow, ih k' (acc + d * 10 ^ (k' + 1)) (by omega)]
      rw [List.reverse_cons, Nat.ofDigits_append]
      simp [Nat.ofDigits, List.length_reverse]
      have hlen : ds.length = k' + 1 := by omega
      rw [hlen]
      ring

theorem wsub0_digit (d : Nat) (h : d < 10) : wsub0 (d + 48) = d := by
  unfold wsub0
  omega

theorem wsub0_lt_ten_iff : ∀ b, b < 256 → (wsub0 b < 10 ↔ 48 ≤ b ∧ b ≤ 57) := by
  decide

open Simple in
theorem parse_digitsGo_spec : ∀ (ds : List Nat) (rest acc : List Nat) (mx : Nat),
    (∀ d ∈ ds, d < 10) → ds.length ≤ mx →
    (∀ b, rest.head? = some b → ¬ wsub0 b < 10) →
    parse_digitsGo mx acc (ds.map (· + 48) ++ rest) = (acc ++ ds, rest) := by
  intro ds
  induction ds with
  | nil =>
    intro rest acc mx _ _ hrest
    match rest with
    | [] => simp [parse_digitsGo]
    | b :: rs =>
      have hb := hrest b rfl
      simp only [List.map_nil, List.nil_append, parse_digitsGo, if_neg hb,
        List.append_nil]
  | cons d ds ih =>
    intro rest acc mx hds hlen hrest
    have hd : d < 10 := hds d (List.mem_cons_self d ds)
    have hds' : ∀ x ∈ ds, x < 10 := fun x hx => hds x (List.mem_cons_of_mem d hx)
    simp only [List.map_cons, List.cons_append, parse_digitsGo, wsub0_digit d hd,
      if_pos hd, List.append_eq]
    simp only [List.length_cons] at hlen
    rw [if_pos (by omega : 0 < mx)]
    rw [ih rest (acc ++ [d]) (mx - 1) hds' (by omega) hrest]
    simp

open Simple in
theorem parse_digits_spec (ds rest : List Nat) (mx : Nat)
    (hne : ds ≠ []) (hds : ∀ d ∈ ds, d < 10) (hlen : ds.length ≤ mx)
    (hrest : ∀ b, rest.head? = some b → ¬ wsub0 b < 10) :
    parse_digits mx (ds.map (· + 48) ++ rest) = .ok (ds, rest) := by
  unfold parse_digits
  rw [parse_digitsGo_spec ds rest [] mx hds hlen hrest]
  simp [hne]

/-! ### Claim theorems -/

open Simple in
/-- C2.  Exponent repartitioning: the `Seconds`/`Nanos` views selected by the
five-way case split of `DurationRepr::parse` denote exactly the digit windows
described by the claim (implicit zeros materialized). -/
theorem exponent_repartition (e : Int) (W F : List Nat) :
    ((partition e W F).1).digitsFull = specSecondsDigits e W F ∧
    ((partition e W F).2).digitsFull = specNanoDigits e W F := by
  unfold partition specSecondsDigits specNanoDigits
  refine ⟨?_, ?_⟩ <;>
  · rcases lt_trichotomy e 0 with h | h | h
    · have he0 : ¬ e = 0 := by omega
      rw [if_pos h, if_neg he0, if_pos h]
      by_cases hW : e.natAbs < W.length
      · rw [if_pos hW, if_pos hW]
        simp [Seconds.digitsFull, Nanos.digitsFull]
      · rw [if_neg hW, if_neg hW]
        simp [Seconds.digitsFull, Nanos.digitsFull, Seconds.ZERO]
    · subst h
      simp [Seconds.digitsFull, Nanos.digitsFull]
    · have he0 : ¬ e = 0 := by omega
      have hneg : ¬ e < 0 := by omega
      rw [if_neg hneg, if_neg he0, if_neg hneg]
      by_cases hF : e.natAbs < F.length
      · rw [if_pos hF, if_pos hF]
        simp [Seconds.digitsFull, Nanos.digitsFull, he0]
      · rw [if_neg hF, if_neg hF]
        simp [Seconds.digitsFull, Nanos.digitsFull, Nanos.ZERO, he0]

open Simple in
theorem Nanos_parse_le (x : Nanos)
    (h1 : ∀ d ∈ x.fst.getD [], d ≤ 9) (h2 : ∀ d ∈ x.snd.getD [], d ≤ 9) :
    x.parse ≤ NANOS_MAX := by
  have hall : ∀ d ∈ (List.replicate (min (x.zeroes.getD 0) 9) 0 ++
      x.fst.getD [] ++ x.snd.getD []).take 9, d ≤ 9 := by
    intro d hd
    have hd' := List.mem_of_mem_take hd
    rcases List.mem_append.mp hd' with hd'' | hd''
    · rcases List.mem_append.mp hd'' with hz | hf
      · have := List.eq_of_mem_replicate hz
        omega
      · exact h1 d hf
    · exact h2 d hd''
  have hb := nanosGo_le ((List.replicate (min (x.zeroes.getD 0) 9) 0 ++
      x.fst.getD [] ++ x.snd.getD []).take 9) 100000000 0 (by norm_num) hall
  have hx : x.parse = nanosGo ((List.replicate (min (x.zeroes.getD 0) 9) 0 ++
      x.fst.getD [] ++ x.snd.getD []).take 9) 100000000 0 := rfl
  rw [hx]
  unfold NANOS_MAX
  omega

open Simple in
theorem DurationRepr_parse_ok_nanos_le (r : DurationRepr) (d : Duration)
    (h : r.parse = .ok d) : d.nanos ≤ NANOS_MAX := by
  unfold DurationRepr.parse at h
  by_cases hinf : r.is_infinite
  · rw [if_pos hinf] at h
    by_cases hneg : r.is_negative
    · rw [if_pos hneg] at h; cases h
    · rw [if_neg hneg] at h
      cases h
      decide
  · rw [if_neg hinf] at h
    have hbody : ∀ (sn : Nat × Nat),
        (if r.is_negative = true ∧ sn.1 = 0 ∧ sn.2 = 0 then Except.ok Duration.ZERO
         else if r.is_negative = true then Except.error ParseError.SyntaxError
         else Except.ok (Duration.new sn.1 sn.2)) = Except.ok d → d.nanos ≤ NANOS_MAX := by
      intro sn hsn
      split at hsn
      · cases hsn; decide
      · split at hsn
        · cases hsn
        · cases hsn
          show sn.2 % 1000000000 ≤ NANOS_MAX
          have : sn.2 % 1000000000 < 1000000000 := Nat.mod_lt _ (by norm_num)
          unfold NANOS_MAX
          omega
    match hw : r.whole, hf : r.fract with
    | none, none => rw [hw, hf] at h; cases h
    | none, some f => rw [hw, hf] at h; exact hbody _ h
    | some w, none => rw [hw, hf] at h; exact hbody _ h
    | some w, some f => rw [hw, hf] at h; exact hbody _ h

open Simple in
/-- C3.  Nanoseconds range invariant: every successful parse returns a
duration with `nanos ≤ 999_999_999`; moreover `Nanos::parse` on digit values
at most 9 (the only values the scanner stores) never reaches `10 ^ 9`. -/
theorem nanos_range_invariant :
    (∀ (input : List Nat) (d : Duration),
      parse_duration input = .ok d → d.nanos ≤ NANOS_MAX) ∧
    (∀ x : Nanos, (∀ d ∈ x.fst.getD [], d ≤ 9) → (∀ d ∈ x.snd.getD [], d ≤ 9) →
      x.parse ≤ NANOS_MAX) := by
  constructor
  · intro input d h
    unfold parse_duration at h
    cases he : parse_durationE input with
    | ok d2 =>
      rw [he] at h
      have h' : (Except.ok d2 : Except String Duration) = .ok d := h
      cases h'
      unfold parse_durationE at he
      cases hp : DurationParser.parse input with
      | ok r =>
        rw [hp] at he
        exact DurationRepr_parse_ok_nanos_le r d he
      | error e =>
        rw [hp] at he
        cases he
    | error e =>
      rw [he] at h
      have h' : (Except.error ("Error parsing duration") : Except String Duration) = .ok d := h
      cases h'
  · exact fun x h1 h2 => Nanos_parse_le x h1 h2

open Simple in
theorem nanos_range_invariant_witness :
    parse_duration (strBytes ("1.5")) = .ok ⟨1, 500000000⟩ ∧
    (500000000 : Nat) ≤ NANOS_MAX :=
  ⟨by decide, nanos_range_invariant.1 (strBytes ("1.5")) ⟨1, 500000000⟩ (by decide)⟩

open Simple in
theorem digitsVal_gt_iff_trunc (l : List Nat) (z : Nat) :
    (SECONDS_MAX < digitsVal (l ++ List.replicate z 0) ↔
     SECONDS_MAX < digitsVal (l ++ List.replicate (min z 20) 0)) := by
  rw [digitsVal_append_zeros, digitsVal_append_zeros]
  rcases Nat.le_total z 20 with hz | hz
  · rw [Nat.min_eq_left hz]
  · rw [Nat.min_eq_right hz]
    rcases Nat.eq_zero_or_pos (digitsVal l) with h0 | h0
    · rw [h0]; simp
    · constructor
      · intro _
        have h1 : 10 ^ 20 ≤ digitsVal l * 10 ^ 20 := Nat.le_mul_of_pos_left _ h0
        have h2 : SECONDS_MAX < 10 ^ 20 := by unfold SECONDS_MAX; norm_num
        omega
      · intro _
        have h1 : 10 ^ 20 ≤ 10 ^ z := Nat.pow_le_pow_right (by norm_num) hz
        have h2 : 10 ^ z ≤ digitsVal l * 10 ^ z := Nat.le_mul_of_pos_left _ h0
        have h3 : SECONDS_MAX < 10 ^ 20 := by unfold SECONDS_MAX; norm_num
        omega

open Simple in
theorem Seconds_parse_overflow (s : Seconds)
    (h : SECONDS_MAX < digitsVal s.digitsFull) : s.parse = .error .Overflow := by
  have h2 : SECONDS_MAX <
      digitsVal (s.fst.getD [] ++ s.snd.getD [] ++
        List.replicate (min (s.zeroes.getD 0) 20) 0) := by
    unfold Seconds.digitsFull at h
    exact (digitsVal_gt_iff_trunc (s.fst.getD [] ++ s.snd.getD []) _).mp h
  unfold digitsVal at h2
  have hx : s.parse = secondsGo (s.fst.getD [] ++ s.snd.getD [] ++
      List.replicate (min (s.zeroes.getD 0) 20) 0) 0 := rfl
  rw [hx]
  exact secondsGo_overflow _ 0 (by unfold SECONDS_MAX; omega) h2

open Simple in
theorem digitsVal_replicate_zero (k : Nat) : digitsVal (List.replicate k 0) = 0 := by
  have := digitsVal_append_zeros [] k
  simpa [digitsVal] using this

open Simple in
theorem DurationRepr_parse_saturates (whole fract : Option (List Nat)) (e : Int)
    (u : TimeUnit)
    (hover : (partition e (whole.getD []) (fract.getD [])).1.parse = .error .Overflow)
    (hne : whole.isSome ∨ fract.isSome) :
    DurationRepr.parse ⟨false, false, whole, fract, e, u⟩ = .ok Duration.MAX := by
  cases whole <;> cases fract
  · simp at hne
  all_goals
    simp only [Option.getD_some, Option.getD_none] at hover
    unfold DurationRepr.parse
    simp only [Option.getD_some, Option.getD_none, hover]
    rfl

open Simple in
/-- C4.  Seconds saturation: a non-negative, non-infinite representation
whose seconds digit window denotes an integer above `u64::MAX` evaluates
without error to the saturated maximum duration, and in particular
`"18446744073709551616.0"` parses to `Duration::MAX`. -/
theorem seconds_saturation :
    (∀ (whole fract : Option (List Nat)) (e : Int) (u : TimeUnit),
      SECONDS_MAX < digitsVal (specSecondsDigits e (whole.getD []) (fract.getD [])) →
      DurationRepr.parse ⟨false, false, whole, fract, e, u⟩ = .ok Duration.MAX) ∧
    parse_duration (strBytes ("18446744073709551616.0")) = .ok Duration.MAX := by
  constructor
  · intro whole fract e u h
    have hval : SECONDS_MAX <
        digitsVal ((partition e (whole.getD []) (fract.getD [])).1).digitsFull := by
      rw [(exponent_repartition e (whole.getD []) (fract.getD [])).1]
      exact h
    have hover := Seconds_parse_overflow _ hval
    have hne : whole.isSome ∨ fract.isSome := by
      rcases whole with _ | w
      · rcases fract with _ | f
        · exfalso
          simp only [Option.getD_none] at h
          have hzero : digitsVal (specSecondsDigits e [] []) = 0 := by
            unfold specSecondsDigits
            split_ifs <;>
              simp [digitsVal, foldl_digit_replicate_zero, List.take_nil] at *
          rw [hzero] at h
          exact absurd h (by omega)
        · right; rfl
      · left; rfl
    exact DurationRepr_parse_saturates whole fract e u hover hne
  · decide

open Simple in
theorem seconds_saturation_witness :
    DurationRepr.parse
      ⟨false, false, some [1, 8, 4, 4, 6, 7, 4, 4, 0, 7, 3, 7, 0, 9, 5, 5, 1, 6, 1, 6],
        some [0], 0, .Second⟩ = .ok Duration.MAX :=
  seconds_saturation.1
    (some [1, 8, 4, 4, 6, 7, 4, 4, 0, 7, 3, 7, 0, 9, 5, 5, 1, 6, 1, 6])
    (some [0]) 0 .Second (by decide)

open Simple in
/-- C6 (amended).  Sign finalization: a parsed representation carrying a
negative sign can only succeed with the ZERO duration (inputs `-0`, `-0.0`);
a nonzero magnitude fails, reported with the generic `Syntax` error kind of
`src/lib.rs` (there is no dedicated `NegativeNumber` variant there). -/
theorem sign_finalization_amended :
    (∀ (r : DurationRepr) (d : Duration),
      r.is_negative = true → r.parse = .ok d → d = Duration.ZERO) ∧
    parse_durationE (strBytes ("-0")) = .ok Duration.ZERO ∧
    parse_durationE (strBytes ("-0.0")) = .ok Duration.ZERO ∧
    parse_durationE (strBytes ("-1")) = .error .SyntaxError := by
  refine ⟨?_, by decide, by decide, by decide⟩
  intro r d hneg h
  unfold DurationRepr.parse at h
  by_cases hinf : r.is_infinite
  · rw [if_pos hinf, if_pos (by rw [hneg])] at h
    cases h
  · rw [if_neg hinf] at h
    have hbody : ∀ (sn : Nat × Nat),
        (if r.is_negative = true ∧ sn.1 = 0 ∧ sn.2 = 0 then Except.ok Duration.ZERO
         else if r.is_negative = true then Except.error ParseError.SyntaxError
         else Except.ok (Duration.new sn.1 sn.2)) = Except.ok d → d = Duration.ZERO := by
      intro sn hsn
      by_cases hz : sn.1 = 0 ∧ sn.2 = 0
      · rw [if_pos ⟨hneg, hz.1, hz.2⟩] at hsn
        cases hsn; rfl
      · rw [if_neg (fun hc => hz ⟨hc.2.1, hc.2.2⟩), if_pos hneg] at hsn
        cases hsn
    match hw : r.whole, hf : r.fract with
    | none, none => rw [hw, hf] at h; cases h
    | none, some f => rw [hw, hf] at h; exact hbody _ h
    | some w, none => rw [hw, hf] at h; exact hbody _ h
    | some w, some f => rw [hw, hf] at h; exact hbody _ h

open Simple in
theorem sign_finalization_witness :
    DurationRepr.parse ⟨true, false, some [0], none, 0, .Second⟩ = .ok Duration.ZERO ∧
    Duration.ZERO = Duration.ZERO :=
  ⟨by decide,
   sign_finalization_amended.1 ⟨true, false, some [0], none, 0, .Second⟩
     Duration.ZERO rfl (by decide)⟩

open Simple in
theorem sign_finalization_counterexample :
    parse_durationE (strBytes ("-1")) = .error .SyntaxError ∧
    parse_durationE (strBytes ("x")) = .error .SyntaxError := by
  exact ⟨by decide, by decide⟩

open Simple in
/-- C9 (code bug).  `src/lib.rs` accepts `"1e+"` as one second, treating the
digit-less exponent as zero, although its own grammar documentation
(`Exp ::= [eE] Sign? Digit+`) requires at least one digit after the sign. -/
theorem exponent_requires_digits_bug :
    parse_duration (strBytes ("1e+")) = .ok ⟨1, 0⟩ := by
  decide

open Simple in
theorem i16wrap_eq_self (n : Int) (h1 : -32768 ≤ n) (h2 : n ≤ 32767) :
    i16wrap n = n := by
  unfold i16wrap
  have : (n + 32768) % 65536 = n + 32768 := Int.emod_eq_of_lt (by omega) (by omega)
  omega

open Simple in
theorem parse_exponentGo_wrap_eq : ∀ (l : List Nat) (is_negative : Bool) (e : Int),
    0 ≤ e → e ≤ 1023 →
    parse_exponentGo is_negative l e = parse_exponentGoPure is_negative l e := by
  intro l
  induction l with
  | nil => intro neg e _ _; rfl
  | cons b rest ih =>
    intro neg e h0 h1
    simp only [parse_exponentGo, parse_exponentGoPure]
    by_cases hd : wsub0 b < 10
    · rw [if_pos hd, if_pos hd]
      have hwrap : i16wrap (e * 10 + ↑(wsub0 b)) = e * 10 + ↑(wsub0 b) := by
        apply i16wrap_eq_self <;> omega
      rw [hwrap]
      by_cases hg : (neg = true ∧ e * 10 + ↑(wsub0 b) ≤ 1022) ∨
          (neg = false ∧ e * 10 + ↑(wsub0 b) ≤ 1023)
      · rw [if_pos hg, if_pos hg]
        apply ih
        · omega
        · rcases hg with ⟨_, hg⟩ | ⟨_, hg⟩ <;> omega
      · rw [if_neg hg, if_neg hg]
    · rw [if_neg hd, if_neg hd]

theorem decDigits_ne_nil (s : Nat) : decDigits s ≠ [] := by
  unfold decDigits
  by_cases h0 : s = 0
  · rw [if_pos h0]; exact List.cons_ne_nil 0 []
  · rw [if_neg h0]
    intro hc
    have : Nat.digits 10 s = [] := by
      have := congrArg List.reverse hc
      simpa using this
    exact h0 (Nat.digits_eq_nil_iff_eq_zero.mp this)

theorem decDigits_lt (s : Nat) : ∀ d ∈ decDigits s, d < 10 := by
  intro d hd
  unfold decDigits at hd
  by_cases h0 : s = 0
  · rw [if_pos h0] at hd
    simp at hd
    omega
  · rw [if_neg h0] at hd
    exact Nat.digits_lt_base (by norm_num) (List.mem_reverse.mp hd)

open Simple in
theorem decDigits_length_le (s : Nat) (hs : s ≤ SECONDS_MAX) :
    (decDigits s).length ≤ 20 := by
  unfold decDigits
  by_cases h0 : s = 0
  · rw [if_pos h0]; norm_num
  · rw [if_neg h0, List.length_reverse]
    have hlt : s < 10 ^ 20 := lt_of_le_of_lt hs (by unfold SECONDS_MAX; norm_num)
    rw [Nat.digits_len 10 s (by norm_num) h0]
    have := Nat.log_lt_of_lt_pow h0 hlt
    omega

theorem digitsVal_decDigits (s : Nat) :
    (decDigits s).foldl (fun a d => a * 10 + d) 0 = s := by
  unfold decDigits
  by_cases h0 : s = 0
  · rw [if_pos h0]; simp [h0]
  · rw [if_neg h0, foldl_digit_eq_ofDigits, List.reverse_reverse, Nat.ofDigits_digits]
    ring

open Simple in
theorem pad9_length (n : Nat) (hn : n ≤ NANOS_MAX) : (pad9 n).length = 9 := by
  unfold pad9
  rw [List.length_append, List.length_replicate, List.length_reverse]
  have hlen : (Nat.digits 10 n).length ≤ 9 := by
    by_cases h0 : n = 0
    · rw [h0]; simp
    · have hlt : n < 10 ^ 9 := lt_of_le_of_lt hn (by unfold NANOS_MAX; norm_num)
      rw [Nat.digits_len 10 n (by norm_num) h0]
      have := Nat.log_lt_of_lt_pow h0 hlt
      omega
  omega

theorem pad9_lt (n : Nat) : ∀ d ∈ pad9 n, d < 10 := by
  intro d hd
  unfold pad9 at hd
  rcases List.mem_append.mp hd with hz | hr
  · have := List.eq_of_mem_replicate hz
    omega
  · exact Nat.digits_lt_base (by norm_num) (List.mem_reverse.mp hr)

theorem ofDigits_pad9 (n : Nat) : Nat.ofDigits 10 (pad9 n).reverse = n := by
  unfold pad9
  rw [List.reverse_append, List.reverse_reverse, List.reverse_replicate,
    Nat.ofDigits_append, Nat.ofDigits_digits, ofDigits_replicate_zero]
  ring

open Simple in
theorem stage_whole_digits (neg : Bool) (ds rest : List Nat) (hne : ds ≠ [])
    (hds : ∀ d ∈ ds, d < 10) (hlen : ds.length ≤ 1043)
    (hrest : ∀ b, rest.head? = some b → ¬ wsub0 b < 10) :
    parseWholeStage neg (ds.map (· + 48) ++ rest) = parseFractStage neg (some ds) rest := by
  obtain ⟨d0, ds', hW⟩ := List.exists_cons_of_ne_nil hne
  have hd0 : d0 < 10 := hds d0 (hW ▸ List.mem_cons_self d0 ds')
  subst hW
  have hpd := parse_digits_spec (d0 :: ds') rest 1043 (List.cons_ne_nil d0 ds') hds hlen hrest
  simp only [List.map_cons, List.cons_append] at hpd
  simp only [List.map_cons, List.cons_append]
  simp only [parseWholeStage]
  rw [if_neg (by omega : ¬ (d0 + 48 = 105 ∨ d0 + 48 = 73)),
    if_pos (by simp only [is_ascii_digit, Bool.and_eq_true, decide_eq_true_eq]; omega)]
  rw [hpd]

open Simple in
theorem stage_fract_digits (neg : Bool) (W F : List Nat) (hne : F ≠ [])
    (hds : ∀ d ∈ F, d < 10) (hlen : F.length ≤ 1033) :
    parseFractStage neg (some W) (46 :: F.map (· + 48)) =
      parseExpStage neg (some W) (some F) [] := by
  obtain ⟨f0, F', hF⟩ := List.exists_cons_of_ne_nil hne
  have hf0 : f0 < 10 := hds f0 (hF ▸ List.mem_cons_self f0 F')
  subst hF
  have hpd := parse_digits_spec (f0 :: F') [] 1033 (List.cons_ne_nil f0 F') hds hlen
    (by intro b hb; cases hb)
  simp only [List.map_cons, List.cons_append, List.append_nil] at hpd
  simp only [List.map_cons]
  simp only [parseFractStage]
  rw [if_pos (by trivial),
    if_pos (by simp only [is_ascii_digit, Bool.and_eq_true, decide_eq_true_eq]; omega)]
  rw [hpd]

open Simple in
theorem scanner_decimal (s n : Nat) (hs : s ≤ SECONDS_MAX) (hn : n ≤ NANOS_MAX) :
    DurationParser.parse (decimalBytes s n) =
      .ok ⟨false, false, some (decDigits s), some (pad9 n), 0, .Second⟩ := by
  have hbytes : decimalBytes s n =
      (decDigits s).map (· + 48) ++ (46 :: (pad9 n).map (· + 48)) := by
    unfold decimalBytes
    rw [List.append_assoc]
    rfl
  obtain ⟨d0, ds', hW⟩ := List.exists_cons_of_ne_nil (decDigits_ne_nil s)
  have hd0 : d0 < 10 := decDigits_lt s d0 (hW ▸ List.mem_cons_self d0 ds')
  have hsign : parse_sign_is_negative
      ((decDigits s).map (· + 48) ++ (46 :: (pad9 n).map (· + 48))) =
      .ok (false, (decDigits s).map (· + 48) ++ (46 :: (pad9 n).map (· + 48))) := by
    rw [hW]
    simp only [List.map_cons, List.cons_append]
    simp only [parse_sign_is_negative]
    rw [if_neg (by omega : ¬ d0 + 48 = 43), if_neg (by omega : ¬ d0 + 48 = 45)]
  unfold DurationParser.parse
  rw [hbytes]
  simp only [hsign]
  rw [stage_whole_digits false (decDigits s) _ (decDigits_ne_nil s) (decDigits_lt s)
    (by have := decDigits_length_le s hs; omega)
    (by intro b hb; simp at hb; subst hb; decide)]
  rw [stage_fract_digits false (decDigits s) (pad9 n)
    (by intro hc; have := pad9_length n hn; rw [hc] at this; simp at this)
    (pad9_lt n) (by have := pad9_length n hn; omega)]
  rfl

open Simple in
theorem eval_decimal (s n : Nat) (hs : s ≤ SECONDS_MAX) (hn : n ≤ NANOS_MAX) :
    DurationRepr.parse ⟨false, false, some (decDigits s), some (pad9 n), 0, .Second⟩ =
      .ok ⟨s, n⟩ := by
  have hsec : Seconds.parse ⟨some (decDigits s), none, none⟩ = .ok s := by
    have hx : Seconds.parse ⟨some (decDigits s), none, none⟩ =
        secondsGo (decDigits s ++ [] ++ List.replicate 0 0) 0 := rfl
    rw [hx]
    simp only [List.replicate_zero, List.append_nil]
    rw [secondsGo_ok _ 0 (by rw [digitsVal_decDigits s]; exact hs), digitsVal_decDigits s]
  have hnan : Nanos.parse ⟨none, some (pad9 n), none⟩ = n := by
    have hx : Nanos.parse ⟨none, some (pad9 n), none⟩ =
        nanosGo ((List.replicate 0 0 ++ pad9 n ++ []).take 9) 100000000 0 := rfl
    rw [hx]
    simp only [List.replicate_zero, List.nil_append, List.append_nil]
    rw [List.take_of_length_le (by rw [pad9_length n hn])]
    rw [(by norm_num : (100000000 : Nat) = 10 ^ 8)]
    rw [nanosGo_value (pad9 n) 8 0 (by rw [pad9_length n hn])]
    rw [ofDigits_pad9 n]
    omega
  have hpart : partition 0 (decDigits s) (pad9 n) =
      (⟨some (decDigits s), none, none⟩, ⟨none, some (pad9 n), none⟩) := by
    unfold partition
    norm_num
  unfold DurationRepr.parse
  simp only [Option.getD_some, hpart, hsec, hnan]
  have hfin : Duration.new s n = ⟨s, n⟩ := by
    unfold Duration.new
    have h1 : n / 1000000000 = 0 := Nat.div_eq_of_lt (by unfold NANOS_MAX at hn; omega)
    have h2 : n % 1000000000 = n := Nat.mod_eq_of_lt (by unfold NANOS_MAX at hn; omega)
    rw [h1, h2]
    simp
  simp [hfin]

open Simple in
/-- C1.  Round-trip exactness: for `s ≤ u64::MAX` and `n ≤ 999_999_999`,
parsing the decimal string `"<s>.<n zero-padded to 9 digits>"` succeeds and
returns exactly the duration `(s, n)`; no digit is altered by any
floating-point rounding. -/
theorem roundtrip_exact (s n : Nat) (hs : s ≤ SECONDS_MAX) (hn : n ≤ NANOS_MAX) :
    parse_duration (decimalBytes s n) = .ok ⟨s, n⟩ := by
  unfold parse_duration parse_durationE
  rw [scanner_decimal s n hs hn]
  simp only []
  rw [eval_decimal s n hs hn]

open Simple in
theorem roundtrip_exact_witness :
    (1 : Nat) ≤ SECONDS_MAX ∧ (5 : Nat) ≤ NANOS_MAX ∧
    parse_duration (decimalBytes 1 5) = .ok ⟨1, 5⟩ :=
  ⟨by decide, by decide, roundtrip_exact 1 5 (by decide) (by decide)⟩

open Simple in
/-- C10.  The unguarded `i16` update in the simple parser's exponent loop
never wraps: running the loop with two's complement `i16` semantics is
extensionally equal to running it with exact integer arithmetic, because the
bound checks keep the accumulator at or below 1023 at each loop head, so
every intermediate value stays at or below 10239 < 32767. -/
theorem exponent_loop_no_overflow (is_negative : Bool) (l : List Nat) :
    parse_exponentGo is_negative l 0 = parse_exponentGoPure is_negative l 0 :=
  parse_exponentGo_wrap_eq l is_negative 0 (by omega) (by omega)

/-! ### The SWAR digit probe (C7) -/

theorem mod_mul_split (p m a x : Nat) (hx : x < p) (hm : 0 < m) :
    (p * a + x) % (p * m) = p * (a % m) + x := by
  have h1 : p * a + x = (p * (a % m) + x) + (p * m) * (a / m) := by
    conv_lhs => rw [← Nat.div_add_mod a m]
    ring
  have h2 : p * (a % m) + x < p * m := by
    have hr : a % m < m := Nat.mod_lt a hm
    have h3 : p * (a % m + 1) ≤ p * m := Nat.mul_le_mul_left p hr
    have h4 : p * (a % m + 1) = p * (a % m) + p := by ring
    omega
  rw [h1, Nat.add_mul_mod_self_left, Nat.mod_eq_of_lt h2]

theorem addMul_inj (p a b x y : Nat) (hx : x < p) (hy : y < p) :
    p * a + x = p * b + y ↔ a = b ∧ x = y := by
  constructor
  · intro h
    have hp : 0 < p := by omega
    have ha : ∀ c z, z < p → (p * c + z) / p = c := by
      intro c z hz
      rw [Nat.add_comm, Nat.add_mul_div_left z c hp, Nat.div_eq_of_lt hz, Nat.zero_add]
    have hb : ∀ c z, z < p → (p * c + z) % p = z := by
      intro c z hz
      rw [Nat.add_comm, Nat.add_mul_mod_self_left, Nat.mod_eq_of_lt hz]
    exact ⟨by rw [← ha a x hx, ← ha b y hy, h], by rw [← hb a x hx, ← hb b y hy, h]⟩
  · rintro ⟨rfl, rfl⟩
    rfl

theorem land_byte_split (a b x y : Nat) (hx : x < 256) (hy : y < 256) :
    (256 * a + x) &&& (256 * b + y) = 256 * (a &&& b) + (x &&& y) := by
  have h256 : (256 : Nat) = 2 ^ 8 := by norm_num
  rw [h256] at hx hy ⊢
  apply Nat.eq_of_testBit_eq
  intro i
  rw [Nat.testBit_and, Nat.testBit_mul_pow_two_add a hx i,
    Nat.testBit_mul_pow_two_add b hy i,
    Nat.testBit_mul_pow_two_add (a &&& b) (Nat.lt_of_le_of_lt Nat.and_le_left hx) i]
  by_cases h : i < 8
  · simp [h, Nat.testBit_and]
  · simp [h, Nat.testBit_and]

open Core in
theorem ofBytesLE_lt : ∀ (bs : List Nat), (∀ b ∈ bs, b < 256) →
    ofBytesLE bs < 256 ^ bs.length := by
  intro bs
  induction bs with
  | nil => intro _; simp [ofBytesLE]
  | cons b rest ih =>
    intro hall
    have hb : b < 256 := hall b (List.mem_cons_self b rest)
    have hr := ih (fun x hx => hall x (List.mem_cons_of_mem b hx))
    simp only [ofBytesLE, List.length_cons]
    rw [pow_succ]
    have h1 : 256 * ofBytesLE rest ≤ 256 * (256 ^ rest.length - 1) :=
      Nat.mul_le_mul_left _ (by omega)
    have h2 : (0 : Nat) < 256 ^ rest.length := Nat.pos_pow_of_pos _ (by norm_num)
    omega

theorem swar_byte_fact : ∀ b, b < 256 →
    ((b &&& (if b ≤ 249 then b + 6 else b - 250)) &&& 240 = 48 ↔ 48 ≤ b ∧ b ≤ 57) := by
  decide

open Core in
theorem swar_key : ∀ (bs : List Nat), (∀ b ∈ bs, b < 256) →
    ((ofBytesLE bs &&& (ofBytesLE bs + swarM bs.length) % 256 ^ bs.length &&&
        swarH bs.length) = swarL bs.length ↔ ∀ b ∈ bs, 48 ≤ b ∧ b ≤ 57) := by
  intro bs
  induction bs with
  | nil =>
    intro _
    simp [ofBytesLE, swarM, swarH, swarL]
  | cons b rest ih =>
    intro hall
    have hb : b < 256 := hall b (List.mem_cons_self b rest)
    have hrest : ∀ x ∈ rest, x < 256 := fun x hx => hall x (List.mem_cons_of_mem b hx)
    have hw' : ofBytesLE rest < 256 ^ rest.length := ofBytesLE_lt rest hrest
    have hofb : ofBytesLE (b :: rest) = 256 * ofBytesLE rest + b := by
      simp only [ofBytesLE]
      omega
    have hM : swarM (rest.length + 1) = 256 * swarM rest.length + 6 := by
      simp only [swarM]
      omega
    have hH : swarH (rest.length + 1) = 256 * swarH rest.length + 240 := by
      simp only [swarH]
      omega
    have hL : swarL (rest.length + 1) = 256 * swarL rest.length + 48 := by
      simp only [swarL]
      omega
    have hpow : (256 : Nat) ^ (rest.length + 1) = 256 * 256 ^ rest.length := by
      rw [pow_succ]
      ring
    have hpos : (0 : Nat) < 256 ^ rest.length := Nat.pos_pow_of_pos _ (by norm_num)
    rw [List.length_cons, hofb, hM, hH, hL, hpow]
    by_cases hble : b ≤ 249
    · have hsum : 256 * ofBytesLE rest + b + (256 * swarM rest.length + 6) =
          256 * (ofBytesLE rest + swarM rest.length) + (b + 6) := by ring
      rw [hsum, mod_mul_split 256 (256 ^ rest.length) _ (b + 6) (by omega) hpos]
      rw [land_byte_split (ofBytesLE rest) _ b (b + 6) hb (by omega)]
      rw [land_byte_split _ (swarH rest.length) _ 240
        (Nat.lt_of_le_of_lt Nat.and_le_left hb) (by omega)]
      rw [addMul_inj 256 _ (swarL rest.length) _ 48
        (Nat.lt_of_le_of_lt Nat.and_le_left (Nat.lt_of_le_of_lt Nat.and_le_left hb))
        (by omega)]
      have hbyte : (b &&& (b + 6)) &&& 240 = 48 ↔ 48 ≤ b ∧ b ≤ 57 := by
        have := swar_byte_fact b hb
        rw [if_pos hble] at this
        exact this
      rw [ih hrest, hbyte, List.forall_mem_cons]
      exact and_comm
    · have hsum : 256 * ofBytesLE rest + b + (256 * swarM rest.length + 6) =
          256 * (ofBytesLE rest + swarM rest.length + 1) + (b - 250) := by omega
      rw [hsum, mod_mul_split 256 (256 ^ rest.length) _ (b - 250) (by omega) hpos]
      rw [land_byte_split (ofBytesLE rest) _ b (b - 250) hb (by omega)]
      rw [land_byte_split _ (swarH rest.length) _ 240
        (Nat.lt_of_le_of_lt Nat.and_le_left hb) (by omega)]
      rw [addMul_inj 256 _ (swarL rest.length) _ 48
        (Nat.lt_of_le_of_lt Nat.and_le_left (Nat.lt_of_le_of_lt Nat.and_le_left hb))
        (by omega)]
      have hbyte : ¬ ((b &&& (b - 250)) &&& 240 = 48) := by
        have hf := swar_byte_fact b hb
        rw [if_neg hble] at hf
        intro hc
        have := hf.mp hc
        omega
      rw [List.forall_mem_cons]
      constructor
      · rintro ⟨_, hc⟩
        exact absurd hc hbyte
      · rintro ⟨⟨h1, h2⟩, _⟩
        omega

open Core in
/-- C7.  SWAR probe correctness: `is_8_digits` returns true iff at least 8
bytes remain at the position and each of those 8 bytes is an ASCII digit;
the masked-arithmetic test on the little-endian 64-bit load is exactly the
all-digits test. -/
theorem swar_probe_correct (input : List Nat) (pos : Nat)
    (hin : ∀ b ∈ input, b < 256) :
    (is_8_digits input pos = true ↔
      pos + 8 ≤ input.length ∧ ∀ b ∈ (input.drop pos).take 8, 48 ≤ b ∧ b ≤ 57) := by
  unfold is_8_digits
  by_cases hle : pos + 8 ≤ input.length
  · rw [if_pos hle]
    have hlen8 : ((input.drop pos).take 8).length = 8 := by
      rw [List.length_take, List.length_drop]
      omega
    have hmem : ∀ b ∈ (input.drop pos).take 8, b < 256 := by
      intro b hbmem
      exact hin b (List.mem_of_mem_drop (List.mem_of_mem_take hbmem))
    have hkey := swar_key ((input.drop pos).take 8) hmem
    rw [hlen8] at hkey
    have hM8 : swarM 8 = 0x0606060606060606 := rfl
    have hH8 : swarH 8 = 0xf0f0f0f0f0f0f0f0 := rfl
    have hL8 : swarL 8 = 0x3030303030303030 := rfl
    have hP8 : (256 : Nat) ^ 8 = 2 ^ 64 := by norm_num
    rw [hM8, hH8, hL8, hP8] at hkey
    simp only [swarTest, beq_iff_eq]
    rw [hkey]
    simp [hle]
  · rw [if_neg hle]
    simp [hle]

/-! ### Exponent bounds of the repr parser (C5) -/

open Core in
theorem exponentGo_pos_spec : ∀ (ds rest : List Nat) (pos m : Nat),
    (∀ d ∈ ds, d < 10) → (∀ b, rest.head? = some b → ¬ wsub0 b < 10) →
    (ds.foldl (fun a d => a * 10 + d) m ≤ 32767 →
      exponentGo false (ds.map (· + 48) ++ rest) pos (m : Int) =
        .ok ((ds.foldl (fun a d => a * 10 + d) m : Nat), rest, pos + ds.length)) ∧
    (m ≤ 32767 → 32767 < ds.foldl (fun a d => a * 10 + d) m →
      exponentGo false (ds.map (· + 48) ++ rest) pos (m : Int) =
        .error .PositiveExponentOverflow) := by
  intro ds
  induction ds with
  | nil =>
    intro rest pos m _ hrest
    constructor
    · intro _
      match rest with
      | [] => simp [exponentGo]
      | b :: rs =>
        have hb := hrest b rfl
        simp only [List.map_nil, List.nil_append, exponentGo, if_neg hb,
          List.foldl_nil, List.length_nil, Nat.add_zero]
    · intro h1 h2
      rw [List.foldl_nil] at h2
      omega
  | cons d rest' ih =>
    intro rest pos m hds hrest
    have hd : d < 10 := hds d (List.mem_cons_self d rest')
    have hds' : ∀ x ∈ rest', x < 10 := fun x hx => hds x (List.mem_cons_of_mem d hx)
    have hcast : ((m : Int) * 10 + ((d : Nat) : Int)) = ((m * 10 + d : Nat) : Int) := by
      push_cast
      ring
    have hlen : pos + (d :: rest').length = pos + 1 + rest'.length := by
      simp only [List.length_cons]
      omega
    constructor
    · intro hle
      rw [List.foldl_cons] at hle
      have hstep : m * 10 + d ≤ 32767 :=
        Nat.le_trans (foldl_digit_mono rest' (m * 10 + d)) hle
      simp only [List.map_cons, List.cons_append, exponentGo, wsub0_digit d hd]
      rw [if_pos hd, if_neg (by decide : ¬ (false = true))]
      split
      · rw [hcast, List.foldl_cons, hlen]
        exact (ih rest (pos + 1) (m * 10 + d) hds' hrest).1 hle
      · rename_i hC
        exact absurd (by omega) hC
    · intro h1 h2
      rw [List.foldl_cons] at h2
      simp only [List.map_cons, List.cons_append, exponentGo, wsub0_digit d hd]
      rw [if_pos hd, if_neg (by decide : ¬ (false = true))]
      by_cases hstep : m * 10 + d ≤ 32767
      · split
        · rw [hcast]
          exact (ih rest (pos + 1) (m * 10 + d) hds' hrest).2 hstep h2
        · rename_i hC
          exact absurd (by omega) hC
      · split
        · rename_i hC
          exfalso
          omega
        · rfl

open Core in
theorem exponentGo_neg_spec : ∀ (ds rest : List Nat) (pos m : Nat),
    (∀ d ∈ ds, d < 10) → (∀ b, rest.head? = some b → ¬ wsub0 b < 10) →
    (ds.foldl (fun a d => a * 10 + d) m ≤ 32768 →
      exponentGo true (ds.map (· + 48) ++ rest) pos (-(m : Int)) =
        .ok (-((ds.foldl (fun a d => a * 10 + d) m : Nat) : Int), rest, pos + ds.length)) ∧
    (m ≤ 32768 → 32768 < ds.foldl (fun a d => a * 10 + d) m →
      exponentGo true (ds.map (· + 48) ++ rest) pos (-(m : Int)) =
        .error .NegativeExponentOverflow) := by
  intro ds
  induction ds with
  | nil =>
    intro rest pos m _ hrest
    constructor
    · intro _
      match rest with
      | [] => simp [exponentGo]
      | b :: rs =>
        have hb := hrest b rfl
        simp only [List.map_nil, List.nil_append, exponentGo, if_neg hb,
          List.foldl_nil, List.length_nil, Nat.add_zero]
    · intro h1 h2
      rw [List.foldl_nil] at h2
      omega
  | cons d rest' ih =>
    intro rest pos m hds hrest
    have hd : d < 10 := hds d (List.mem_cons_self d rest')
    have hds' : ∀ x ∈ rest', x < 10 := fun x hx => hds x (List.mem_cons_of_mem d hx)
    have hcast : (-(m : Int) * 10 - ((d : Nat) : Int)) = -((m * 10 + d : Nat) : Int) := by
      push_cast
      ring
    have hlen : pos + (d :: rest').length = pos + 1 + rest'.length := by
      simp only [List.length_cons]
      omega
    constructor
    · intro hle
      rw [List.foldl_cons] at hle
      have hstep : m * 10 + d ≤ 32768 :=
        Nat.le_trans (foldl_digit_mono rest' (m * 10 + d)) hle
      simp only [List.map_cons, List.cons_append, exponentGo, wsub0_digit d hd]
      rw [if_pos hd, if_pos trivial]
      split
      · rw [hcast, List.foldl_cons, hlen]
        exact (ih rest (pos + 1) (m * 10 + d) hds' hrest).1 hle
      · rename_i hC
        exact absurd (by omega) hC
    · intro h1 h2
      rw [List.foldl_cons] at h2
      simp only [List.map_cons, List.cons_append, exponentGo, wsub0_digit d hd]
      rw [if_pos hd, if_pos trivial]
      by_cases hstep : m * 10 + d ≤ 32768
      · split
        · rw [hcast]
          exact (ih rest (pos + 1) (m * 10 + d) hds' hrest).2 hstep h2
        · rename_i hC
          exact absurd (by omega) hC
      · split
        · rename_i hC
          exfalso
          omega
        · rfl

open Core in
/-- C5 (amended).  In the repr parser the exponent scan is guarded by checked
`i16` arithmetic: a positive exponent whose digit value exceeds 32767 fails
with `PositiveExponentOverflow` and a negative one whose digit value exceeds
32768 fails with `NegativeExponentOverflow` — i.e. the `i16` range, which is
also the default `min_exponent`/`max_exponent`; a narrower configured range
is not enforced at scan time.  `"1e32768"`/`"1e-32769"` fail with those
kinds, while the simple parser of `src/lib.rs` enforces `-1022..=1023` and
rejects `"1e1024"` with its single `Overflow` kind. -/
theorem exponent_bound_errors_amended :
    (∀ (ds rest : List Nat) (pos : Nat),
      (∀ d ∈ ds, d < 10) → (∀ b, rest.head? = some b → ¬ wsub0 b < 10) →
      (digitsVal ds ≤ 32767 →
        exponentGo false (ds.map (· + 48) ++ rest) pos 0 =
          .ok ((digitsVal ds : Nat), rest, pos + ds.length)) ∧
      (32767 < digitsVal ds →
        exponentGo false (ds.map (· + 48) ++ rest) pos 0 =
          .error .PositiveExponentOverflow) ∧
      (digitsVal ds ≤ 32768 →
        exponentGo true (ds.map (· + 48) ++ rest) pos 0 =
          .ok (-((digitsVal ds : Nat) : Int), rest, pos + ds.length)) ∧
      (32768 < digitsVal ds →
        exponentGo true (ds.map (· + 48) ++ rest) pos 0 =
          .error .NegativeExponentOverflow)) ∧
    ReprParser.parse Config.new TimeUnits.empty (strBytes ("1e32768")) =
      .error .PositiveExponentOverflow ∧
    ReprParser.parse Config.new TimeUnits.empty (strBytes ("1e-32769")) =
      .error .NegativeExponentOverflow ∧
    Simple.parse_durationE (strBytes ("1e1024")) = .error .Overflow := by
  refine ⟨?_, by decide, by decide, by decide⟩
  intro ds rest pos hds hrest
  have hpos := exponentGo_pos_spec ds rest pos 0 hds hrest
  have hneg := exponentGo_neg_spec ds rest pos 0 hds hrest
  have h0 : ((0 : Nat) : Int) = 0 := rfl
  have hneg0 : -((0 : Nat) : Int) = 0 := rfl
  rw [h0] at hpos
  rw [hneg0] at hneg
  exact ⟨hpos.1, fun h => hpos.2 (by omega) h, hneg.1, fun h => hneg.2 (by omega) h⟩

open Core in
theorem exponent_bound_errors_counterexample :
    ReprParser.parse Config.new TimeUnits.empty (strBytes ("1e1024")) =
      .ok (⟨false, false, some ⟨[1], 6⟩, some ⟨1⟩, none, 1024, .Second, ⟨1, 0⟩, false⟩,
        none) := by
  decide

open Core in
theorem exponent_bound_errors_witness :
    exponentGo false ([3, 2, 7, 6, 8].map (· + 48) ++ []) 0 0 =
      .error .PositiveExponentOverflow :=
  ((exponent_bound_errors_amended.1 [3, 2, 7, 6, 8] [] 0 (by decide)
    (by intro b hb; cases hb)).2.1 (by decide))

open Core in
/-- The byte-wise loop of `parse_whole`: with positive capacity (the local
capacity is never decremented in the byte-wise loop) and a continuation whose
first byte is not a digit, the non-stripping state pushes every digit and the
stripping state pushes everything past the leading zeros. -/
theorem wholeSlowGo_spec : ∀ (ds rest : List Nat) (pos cap : Nat) (data : List Nat),
    0 < cap → (∀ d ∈ ds, d < 10) → (∀ b, rest.head? = some b → ¬ wsub0 b < 10) →
    (wholeSlowGo cap false data (ds.map (· + 48) ++ rest) pos =
      (data ++ ds, rest, pos + ds.length)) ∧
    (wholeSlowGo cap true data (ds.map (· + 48) ++ rest) pos =
      (data ++ ds.dropWhile (· == 0), rest, pos + ds.length)) := by
  intro ds
  induction ds with
  | nil =>
    intro rest pos cap data hcap _ hrest
    constructor
    · match rest with
      | [] => simp [wholeSlowGo]
      | b :: rs =>
        have hb := hrest b rfl
        simp only [List.map_nil, List.nil_append, wholeSlowGo, if_neg hb,
          List.append_nil, List.length_nil, Nat.add_zero]
    · match rest with
      | [] => simp [wholeSlowGo]
      | b :: rs =>
        have hb := hrest b rfl
        simp only [List.map_nil, List.nil_append, List.dropWhile_nil, wholeSlowGo,
          if_neg hb, List.append_nil, List.length_nil, Nat.add_zero]
  | cons d ds' ih =>
    intro rest pos cap data hcap hds hrest
    have hd : d < 10 := hds d (List.mem_cons_self d ds')
    have hds' : ∀ x ∈ ds', x < 10 := fun x hx => hds x (List.mem_cons_of_mem d hx)
    have hlen : pos + (d :: ds').length = pos + 1 + ds'.length := by
      simp only [List.length_cons]
      omega
    constructor
    · simp only [List.map_cons, List.cons_append, wholeSlowGo, wsub0_digit d hd,
        List.append_eq]
      rw [if_pos hd, if_pos ⟨hcap, Or.inl trivial⟩,
        (ih rest (pos + 1) cap (data ++ [d]) hcap hds' hrest).1,
        List.append_assoc, List.singleton_append, hlen]
    · simp only [List.map_cons, List.cons_append, wholeSlowGo, wsub0_digit d hd,
        List.append_eq]
      rw [if_pos hd]
      by_cases hd0 : d = 0
      · subst hd0
        rw [if_neg (by simp), (ih rest (pos + 1) cap data hcap hds' hrest).2,
          List.dropWhile_cons, if_pos (by decide : (((0 : Nat) == 0) = true)), hlen]
      · have hb : ((d == 0) = false) := by simp [hd0]
        rw [if_pos ⟨hcap, Or.inr hd0⟩,
          (ih rest (pos + 1) cap (data ++ [d]) hcap hds' hrest).1,
          List.dropWhile_cons, if_neg (by simp [hb]),
          List.append_assoc, List.singleton_append, hlen]

open Core in
/-- The byte-wise loop of `parse_fract`: with positive capacity every digit is
pushed, zeros included. -/
theorem fractSlowGo_spec : ∀ (ds rest : List Nat) (pos cap : Nat) (data : List Nat),
    0 < cap → (∀ d ∈ ds, d < 10) → (∀ b, rest.head? = some b → ¬ wsub0 b < 10) →
    fractSlowGo cap data (ds.map (· + 48) ++ rest) pos =
      (data ++ ds, rest, pos + ds.length) := by
  intro ds
  induction ds with
  | nil =>
    intro rest pos cap data hcap _ hrest
    match rest with
    | [] => simp [fractSlowGo]
    | b :: rs =>
      have hb := hrest b rfl
      simp only [List.map_nil, List.nil_append, fractSlowGo, if_neg hb,
        List.append_nil, List.length_nil, Nat.add_zero]
  | cons d ds' ih =>
    intro rest pos cap data hcap hds hrest
    have hd : d < 10 := hds d (List.mem_cons_self d ds')
    have hds' : ∀ x ∈ ds', x < 10 := fun x hx => hds x (List.mem_cons_of_mem d hx)
    have hlen : pos + (d :: ds').length = pos + 1 + ds'.length := by
      simp only [List.length_cons]
      omega
    simp only [List.map_cons, List.cons_append, fractSlowGo, wsub0_digit d hd,
      List.append_eq]
    rw [if_pos hd, if_pos hcap, ih rest (pos + 1) cap (data ++ [d]) hcap hds' hrest,
      List.append_assoc, List.singleton_append, hlen]

open Core in
/-- C8 (amended).  Only the byte-wise path of `parse_whole` strips leading
zeros of the whole part: starting from an empty digit buffer with positive
capacity, a digit run scanned byte-by-byte stores exactly the run with its
leading zeros removed, while `parse_fract` stores the fraction run verbatim,
leading zeros included.  The fast 8-digit path preserves the invariant only
blockwise: an all-zero block is skipped while stripping (conjunct three,
`"0000000011111111"` stores just `[1,1,1,1,1,1,1,1]`), but zeros inside a
nonzero block are stored, so the whole span can begin with zero digits (see
the counterexample `"00000010"`). -/
theorem leading_zero_invariant_amended
    (d : Nat) (ds rest : List Nat) (pos cap : Nat)
    (hcap : 0 < cap)
    (hds : ∀ x ∈ d :: ds, x < 10)
    (hrest : ∀ b, rest.head? = some b → ¬ wsub0 b < 10)
    (hslow : ¬ (8 ≤ cap ∧ is_8_digits ((d :: ds).map (· + 48) ++ rest) 0 = true)) :
    (parse_whole ⟨[], cap⟩ ((d :: ds).map (· + 48) ++ rest) pos =
      (⟨((d :: ds).dropWhile (· == 0)).length⟩,
       ⟨(d :: ds).dropWhile (· == 0), cap⟩, rest, pos + (d :: ds).length)) ∧
    (parse_fract ⟨[], cap⟩ ((d :: ds).map (· + 48) ++ rest) pos =
      (⟨0, (d :: ds).length⟩, ⟨d :: ds, cap⟩, rest, pos + (d :: ds).length)) ∧
    parse_whole ⟨[], 16⟩ (strBytes ("0000000011111111")) 0 =
      (⟨8⟩, ⟨[1, 1, 1, 1, 1, 1, 1, 1], 16⟩, [], 16) := by
  have hd : d < 10 := hds d (List.mem_cons_self d ds)
  have hds' : ∀ x ∈ ds, x < 10 := fun x hx => hds x (List.mem_cons_of_mem d hx)
  have hlen : pos + (d :: ds).length = pos + 1 + ds.length := by
    simp only [List.length_cons]
    omega
  refine ⟨?_, ?_, by decide⟩
  · rw [hlen]
    simp only [List.map_cons, List.cons_append] at hslow ⊢
    simp only [parse_whole, Nat.add_sub_cancel, List.nil_append, List.append_eq]
    rw [if_neg hslow]
    by_cases hd0 : d = 0
    · subst hd0
      rw [if_neg (by simp), (by decide : (((0 : Nat) == 0) = true)),
        (wholeSlowGo_spec ds rest (pos + 1) cap [] hcap hds' hrest).2]
      simp [List.dropWhile_cons]
    · have hb : ((d == 0) = false) := by simp [hd0]
      rw [if_pos hd0, hb, (wholeSlowGo_spec ds rest (pos + 1) cap [d] hcap hds' hrest).1]
      simp [List.dropWhile_cons, hb]
  · rw [hlen]
    simp only [List.map_cons, List.cons_append] at hslow ⊢
    simp only [parse_fract, List.length_nil, Nat.sub_zero, Nat.add_sub_cancel,
      List.nil_append, List.append_eq]
    rw [if_neg hslow, fractSlowGo_spec ds rest (pos + 1) cap [d] hcap hds' hrest]
    simp

open Core in
theorem leading_zero_invariant_counterexample :
    ReprParser.parse Config.new TimeUnits.empty (strBytes ("00000010")) =
      .ok (⟨false, false, some ⟨[0, 0, 0, 0, 0, 0, 1, 0], 8⟩, some ⟨8⟩, none, 0,
        .Second, ⟨1, 0⟩, false⟩, none) ∧
    ([0, 0, 0, 0, 0, 0, 1, 0].take 8).head? = some 0 := by
  refine ⟨by decide, rfl⟩

open Core in
theorem leading_zero_invariant_witness :
    (0 < 4) ∧ (∀ x ∈ [0, 1, 0], x < 10) ∧
    (∀ b, ([] : List Nat).head? = some b → ¬ wsub0 b < 10) ∧
    (¬ (8 ≤ 4 ∧ is_8_digits ([0, 1, 0].map (· + 48) ++ []) 0 = true)) ∧
    ((parse_whole ⟨[], 4⟩ ([0, 1, 0].map (· + 48) ++ []) 0 =
        (⟨(([0, 1, 0] : List Nat).dropWhile (· == 0)).length⟩,
         ⟨([0, 1, 0] : List Nat).dropWhile (· == 0), 4⟩, [], 0 + [0, 1, 0].length)) ∧
      (parse_fract ⟨[], 4⟩ ([0, 1, 0].map (· + 48) ++ []) 0 =
        (⟨0, [0, 1, 0].length⟩, ⟨[0, 1, 0], 4⟩, [], 0 + [0, 1, 0].length)) ∧
      parse_whole ⟨[], 16⟩ (strBytes ("0000000011111111")) 0 =
        (⟨8⟩, ⟨[1, 1, 1, 1, 1, 1, 1, 1], 16⟩, [], 16)) :=
  ⟨by decide, by decide, fun b hb => Option.noConfusion hb, by decide,
    leading_zero_invariant_amended 0 [1, 0] [] 0 4 (by decide) (by decide)
      (fun b hb => Option.noConfusion hb) (by decide)⟩

open Core in
theorem swar_probe_correct_witness :
    (∀ b ∈ strBytes ("12345678"), b < 256) ∧
    (is_8_digits (strBytes ("12345678")) 0 = true ↔
      0 + 8 ≤ (strBytes ("12345678")).length ∧
        ∀ b ∈ ((strBytes ("12345678")).drop 0).take 8, 48 ≤ b ∧ b ≤ 57) :=
  ⟨by decide, swar_probe_correct (strBytes ("12345678")) 0 (by decide)⟩

end Fundu
